import Mathlib

/-!
Verification of the exokernel capability subsystem
(`src/exokernel/srv/capability/resourse.rs`) and the physical page
allocator (`src/exokernel/srv/mm/physical.rs`).

The Rust code is shallowly embedded: machine integers become `Nat` with
explicit `% 2^32` / `% 2^64` where wrap-around matters, `BTreeMap`s become
total functions with a default value (absent key = empty list, or an
`Option` where presence is observable), `Vec` push/pop becomes list
append / head, and the global mutable state becomes an explicit
`CapState` record threaded through every operation.  Fallible operations
return `Except CapError _ × CapState` so that error paths that leave
partial mutations behind (as the Rust code does) are modelled faithfully.

The per-CPU validation cache (`PerCpuCache`) is not modelled: every hit
is re-validated against `RO_DATA` before use, so it changes no observable
result of the operations studied here, and none of the verified claims
mention it.  The unbounded Rust recursion in `revoke_dfs_locked` is
modelled with an explicit fuel parameter (fuel exhaustion returns the
state unchanged); the entry points use fuel `MAX_CAPABILITIES`, which is
more than the depth of any delegation forest the code can build.
-/

/-- `u32::MAX + 1`, the modulus for `u32` wrapping arithmetic. -/
def U32MOD : Nat := 4294967296

/-- `u64::MAX + 1`, the modulus for `u64` wrapping arithmetic. -/
def U64MOD : Nat := 18446744073709551616

/-- Pointwise function update (used in place of Rust map/array writes). -/
def upd {α β : Type} [DecidableEq α] (f : α → β) (a : α) (v : β) : α → β :=
  fun x => if x = a then v else f x

theorem upd_same {α β : Type} [DecidableEq α] (f : α → β) (a : α) (v : β) :
    upd f a v a = v := by simp [upd]

theorem upd_ne {α β : Type} [DecidableEq α] (f : α → β) (a : α) (v : β)
    (x : α) (h : x ≠ a) : upd f a v x = f x := by simp [upd, h]

-- ========== Capability bits (mod caps in the source) ==========

namespace caps

def READ : Nat := 1
def WRITE : Nat := 2
def EXECUTE : Nat := 4
def MAP : Nat := 8
def DELETE : Nat := 16
def TRANSFER : Nat := 32
def GRANT : Nat := 64
def REVOKE : Nat := 128
def ALL : Nat := 0xFF
def RW : Nat := READ ||| WRITE
def RO : Nat := READ
def TRANSFERABLE_MASK : Nat := READ ||| WRITE ||| EXECUTE ||| MAP ||| DELETE

end caps

-- ========== Resource identifiers ==========

inductive ResourceType where
  | PhysicalPage
  | VirtualMemory
  | IoPort
  | Interrupt
  | DmaChannel
  | Device
  | IpcChannel
  | Custom
deriving DecidableEq, Repr

structure ResourceId where
  id : Nat
  typ : ResourceType
deriving DecidableEq, Repr

/-- `ThreadId` is a plain `u64` newtype in the source. -/
abbrev ThreadId := Nat

inductive ScopeKind where
  | Syscall (tid : ThreadId) (seq : Nat)
  | Thread (tid : ThreadId)
  | Process
  | Permanent
deriving DecidableEq, Repr

/-- `ScopeKind::can_borrow_from`, clause for clause from the source match. -/
def ScopeKind.can_borrow_from (self owner : ScopeKind) : Bool :=
  match self, owner with
  | _, .Permanent => true
  | _, .Process => true
  | .Thread a, .Thread b => a == b
  | .Syscall a _, .Thread b => a == b
  | .Syscall a sa, .Syscall b sb => a == b && sa == sb
  | _, _ => false

-- ========== Slot state, entries, handles, errors ==========

inductive SlotState where
  | Free
  | Allocating
  | Live
  | PendingRevoke
deriving DecidableEq, Repr

structure CapabilityEntry where
  resource_id : ResourceId
  owner_pid : Nat
  capabilities : Nat
  generation : Nat
  state : SlotState
  created_at : Nat
  creation_order : Nat
  scope : ScopeKind
deriving DecidableEq, Repr

def CapabilityEntry.empty : CapabilityEntry :=
  { resource_id := ⟨0, .Custom⟩, owner_pid := 0, capabilities := 0,
    generation := 0, state := .Free, created_at := 0, creation_order := 0,
    scope := .Permanent }

/-- A capability handle.  In the source the `(index, generation)` pair is
packed into one `u64`; both components are below `2^32`, so the packing
is lossless and we keep the fields unpacked. -/
structure CapabilityHandle where
  index : Nat
  generation : Nat
  scope : ScopeKind
  creation_order : Nat
deriving DecidableEq, Repr

inductive CapError where
  | TableFull
  | PermissionDenied
  | ResourceNotFound
  | InvalidHandle
  | AlreadyBound
  | Unsupported
  | TooManyChildren
  | Expired
  | BorrowConflict
  | TooManyBorrows
  | NotBorrowed
  | AlreadyBorrowed
  | StillFrozen
  | NotFrozen
deriving DecidableEq, Repr

-- ========== Resource-level borrow state machine ==========

structure ResourceBorrowState where
  shared : List (Nat × ThreadId)
  exclusive : Option (Nat × ThreadId × ScopeKind)
  frozen_count : Nat
deriving DecidableEq, Repr

namespace ResourceBorrowState

def new : ResourceBorrowState := { shared := [], exclusive := none, frozen_count := 0 }

def has_active (s : ResourceBorrowState) : Bool :=
  s.exclusive.isSome || !s.shared.isEmpty || decide (0 < s.frozen_count)

def can_revoke (s : ResourceBorrowState) : Bool := !s.has_active

/-- Tail of `try_shared` after the exclusive-holder check. -/
def try_shared_push (s : ResourceBorrowState) (cap_idx : Nat) (tid : ThreadId) :
    Except CapError Unit × ResourceBorrowState :=
  if s.shared.any (fun p => p.1 == cap_idx && p.2 == tid) then
    (.error .AlreadyBorrowed, s)
  else if 65535 ≤ s.shared.length then (.error .TooManyBorrows, s)
  else (.ok (), { s with shared := s.shared ++ [(cap_idx, tid)] })

def try_shared (s : ResourceBorrowState) (cap_idx : Nat) (tid : ThreadId)
    (caps_bits : Nat) : Except CapError Unit × ResourceBorrowState :=
  if caps_bits &&& caps.READ = 0 then (.error .PermissionDenied, s)
  else
    match s.exclusive with
    | some (_, ex_tid, _) =>
      if s.frozen_count = 0 ∨ ex_tid ≠ tid then (.error .BorrowConflict, s)
      else try_shared_push s cap_idx tid
    | none => try_shared_push s cap_idx tid

/-- Required rights for `try_exclusive`, by resource type. -/
def required_for (rty : ResourceType) : Nat :=
  match rty with
  | .PhysicalPage | .VirtualMemory => caps.WRITE ||| caps.MAP
  | .Device | .IoPort => caps.WRITE
  | _ => caps.WRITE

def try_exclusive (s : ResourceBorrowState) (cap_idx : Nat) (tid : ThreadId)
    (scope : ScopeKind) (caps_bits : Nat) (rty : ResourceType) :
    Except CapError Unit × ResourceBorrowState :=
  let req := required_for rty
  if caps_bits &&& req ≠ req then (.error .PermissionDenied, s)
  else if s.exclusive.isSome || !s.shared.isEmpty || decide (0 < s.frozen_count) then
    (.error .BorrowConflict, s)
  else (.ok (), { s with exclusive := some (cap_idx, tid, scope) })

/-- `Vec::swap_remove` at position `i`: overwrite position `i` with the
last element, then drop the last element. -/
def swap_remove (l : List (Nat × ThreadId)) (i : Nat) : List (Nat × ThreadId) :=
  (l.set i (l.getLast?.getD (0, 0))).dropLast

def release_shared (s : ResourceBorrowState) (cap_idx : Nat) (tid : ThreadId) :
    Except CapError Unit × ResourceBorrowState :=
  match s.shared.findIdx? (fun p => p.1 == cap_idx && p.2 == tid) with
  | some i => (.ok (), { s with shared := swap_remove s.shared i })
  | none => (.error .NotBorrowed, s)

def freeze (s : ResourceBorrowState) (cap_idx : Nat) (tid : ThreadId) :
    Except CapError Unit × ResourceBorrowState :=
  match s.exclusive with
  | some (i, t, _) =>
    if i = cap_idx ∧ t = tid then
      (.ok (), { s with frozen_count := min (s.frozen_count + 1) (U32MOD - 1) })
    else (.error .NotBorrowed, s)
  | none => (.error .NotBorrowed, s)

def release_exclusive (s : ResourceBorrowState) (cap_idx : Nat) (tid : ThreadId) :
    Except CapError Unit × ResourceBorrowState :=
  match s.exclusive with
  | some (i, t, _) =>
    if i = cap_idx ∧ t = tid then
      if 0 < s.frozen_count then (.error .StillFrozen, s)
      else (.ok (), { s with exclusive := none })
    else (.error .NotBorrowed, s)
  | none => (.error .NotBorrowed, s)

def unfreeze (s : ResourceBorrowState) (cap_idx : Nat) (tid : ThreadId) :
    Except CapError Unit × ResourceBorrowState :=
  match s.exclusive with
  | some (i, t, _) =>
    if i = cap_idx ∧ t = tid then
      if s.frozen_count = 0 then (.error .NotFrozen, s)
      else (.ok (), { s with frozen_count := s.frozen_count - 1 })
    else (.error .NotBorrowed, s)
  | none => (.error .NotBorrowed, s)

end ResourceBorrowState

/-- One request to the per-resource borrow state machine. -/
inductive BorrowOp where
  | tryShared (cap_idx : Nat) (tid : ThreadId) (caps_bits : Nat)
  | tryExclusive (cap_idx : Nat) (tid : ThreadId) (scope : ScopeKind)
      (caps_bits : Nat) (rty : ResourceType)
  | releaseShared (cap_idx : Nat) (tid : ThreadId)
  | releaseExclusive (cap_idx : Nat) (tid : ThreadId)
  | freeze (cap_idx : Nat) (tid : ThreadId)
  | unfreeze (cap_idx : Nat) (tid : ThreadId)

/-- Apply one request; a rejected request leaves the state unchanged,
exactly as the `&mut self` methods in the source do. -/
def BorrowOp.step (s : ResourceBorrowState) (op : BorrowOp) : ResourceBorrowState :=
  match op with
  | .tryShared c t cb => (s.try_shared c t cb).2
  | .tryExclusive c t sc cb rty => (s.try_exclusive c t sc cb rty).2
  | .releaseShared c t => (s.release_shared c t).2
  | .releaseExclusive c t => (s.release_exclusive c t).2
  | .freeze c t => (s.freeze c t).2
  | .unfreeze c t => (s.unfreeze c t).2

/-- The borrow state reached from the empty state by a request sequence. -/
def borrowRun (ops : List BorrowOp) : ResourceBorrowState :=
  ops.foldl BorrowOp.step ResourceBorrowState.new

-- ========== The capability table state ==========

def MAX_CAPABILITIES : Nat := 8192
def MAX_CHILDREN_PER_CAP : Nat := 32

/-- The combined global state of the capability subsystem: the `RO_DATA`
slot array (as a total function; only indices `< MAX_CAPABILITIES` are
meaningful) and the `WR_DATA` write-side indices, plus the two global
counters.  Absent `BTreeMap` keys are identified with the empty list,
which is observationally equivalent in every operation modelled here;
`resource_borrows` keeps an `Option` because borrow operations fail with
`ResourceNotFound` when the key is absent. -/
structure CapState where
  ro : Nat → CapabilityEntry
  free_slots : List Nat
  quick_cache : Nat × ResourceId → List Nat
  process_caps : Nat → List Nat
  thread_caps : Nat → List Nat
  syscall_caps : Nat × Nat → List Nat
  children_of : Nat → List Nat
  parent_of : Nat → Option Nat
  resource_borrows : ResourceId → Option ResourceBorrowState
  pending_revoke : ResourceId → List Nat
  used_count : Nat
  global_timestamp : Nat
  creation_seq : Nat

/-- `init()`: all slots empty, the free list holding `0, 1, …, 8191` with
`0` on top (the source pushes `(0..MAX).rev()` onto a `Vec` popped from
the back). -/
def initState : CapState :=
  { ro := fun _ => CapabilityEntry.empty,
    free_slots := List.range MAX_CAPABILITIES,
    quick_cache := fun _ => [],
    process_caps := fun _ => [],
    thread_caps := fun _ => [],
    syscall_caps := fun _ => [],
    children_of := fun _ => [],
    parent_of := fun _ => none,
    resource_borrows := fun _ => none,
    pending_revoke := fun _ => [],
    used_count := 0, global_timestamp := 0, creation_seq := 0 }

/-- `fast_validate`: index in range, slot Live, generation and scope match. -/
def fast_validate (s : CapState) (h : CapabilityHandle) : Except CapError Unit :=
  if MAX_CAPABILITIES ≤ h.index then .error .InvalidHandle
  else
    let e := s.ro h.index
    if e.state ≠ .Live then .error .InvalidHandle
    else if e.generation ≠ h.generation then .error .InvalidHandle
    else if e.scope ≠ h.scope then .error .InvalidHandle
    else .ok ()

def qc_remove_idx (s : CapState) (pid : Nat) (rid : ResourceId) (idx : Nat) : CapState :=
  let v := (s.quick_cache (pid, rid)).filter (fun x => x ≠ idx)
  { s with quick_cache := upd s.quick_cache (pid, rid) v }

def scope_remove_idx (s : CapState) (scope : ScopeKind) (idx : Nat) : CapState :=
  match scope with
  | .Process => s
  | .Thread t =>
    let v := (s.thread_caps t).filter (fun x => x ≠ idx)
    { s with thread_caps := upd s.thread_caps t v }
  | .Syscall t q =>
    let v := (s.syscall_caps (t, q)).filter (fun x => x ≠ idx)
    { s with syscall_caps := upd s.syscall_caps (t, q) v }
  | .Permanent => s

def unlink_graph_locked (s : CapState) (idx : Nat) : CapState :=
  let s1 :=
    match s.parent_of idx with
    | some p =>
      { s with parent_of := upd s.parent_of idx none,
               children_of := upd s.children_of p ((s.children_of p).filter (fun c => c ≠ idx)) }
    | none => s
  let cs := s1.children_of idx
  { s1 with children_of := upd s1.children_of idx [],
            parent_of := cs.foldl (fun pf c => upd pf c none) s1.parent_of }

/-- `free_slot_locked`: bump the generation (wrapping `u32`), mark Free,
decrement `used_count` (saturating), push the index on the free list.
(The per-CPU cache invalidation has no modelled effect.) -/
def free_slot_locked (s : CapState) (idx : Nat) : CapState :=
  let e := s.ro idx
  { s with ro := upd s.ro idx { e with generation := (e.generation + 1) % U32MOD,
                                       state := .Free },
           used_count := s.used_count - 1,
           free_slots := idx :: s.free_slots }

/-- The unconditional-revoke tail of `revoke_one_locked`. -/
def revoke_free_path (s : CapState) (idx : Nat) : CapState :=
  let e := s.ro idx
  free_slot_locked
    (unlink_graph_locked
      (scope_remove_idx (qc_remove_idx s e.owner_pid e.resource_id idx) e.scope idx) idx) idx

def revoke_one_locked (s : CapState) (idx : Nat) (strict : Bool) :
    Except CapError Unit × CapState :=
  let e := s.ro idx
  let rid := e.resource_id
  match s.resource_borrows rid with
  | some bs =>
    if bs.has_active then
      if strict then (.error .BorrowConflict, s)
      else (.ok (), { s with
        pending_revoke := upd s.pending_revoke rid (s.pending_revoke rid ++ [idx]),
        ro := upd s.ro idx { e with state := .PendingRevoke } })
    else (.ok (), revoke_free_path s idx)
  | none => (.ok (), revoke_free_path s idx)

/-- Sequential composition over a child list, short-circuiting on the
first error but keeping the state mutated so far (as `?` does in Rust). -/
def revoke_dfs_list (f : CapState → Nat → Except CapError Unit × CapState) :
    CapState → List Nat → Except CapError Unit × CapState
  | s, [] => (.ok (), s)
  | s, c :: cs =>
    match f s c with
    | (.ok _, s') => revoke_dfs_list f s' cs
    | (.error e, s') => (.error e, s')

/-- `revoke_dfs_locked`, children first.  The Rust recursion is unbounded;
here it carries fuel, and exhausted fuel returns the state unchanged.
Entry points pass `MAX_CAPABILITIES`, which exceeds the depth of any
delegation forest the table can hold. -/
def revoke_dfs_locked : Nat → CapState → Nat → Bool → Except CapError Unit × CapState
  | 0, s, _, _ => (.ok (), s)
  | fuel+1, s, idx, strict =>
    if MAX_CAPABILITIES ≤ idx then (.ok (), s)
    else if (s.ro idx).state = .Free then (.ok (), s)
    else
      match revoke_dfs_list (fun s' c => revoke_dfs_locked fuel s' c strict) s
          (s.children_of idx) with
      | (.ok _, s') => revoke_one_locked s' idx strict
      | (.error e, s') => (.error e, s')

/-- The completion loop body of `try_complete_pending_for`; errors of
`revoke_one_locked` are discarded (`let _ = …`). -/
def complete_list (s : CapState) (l : List Nat) : CapState :=
  l.foldl (fun st i => (revoke_one_locked st i true).2) s

def try_complete_pending_for (s : CapState) (rid : ResourceId) : CapState :=
  if (s.pending_revoke rid).isEmpty then s
  else
    let proceed :=
      match s.resource_borrows rid with
      | some bs => !bs.has_active
      | none => true
    if proceed then
      let idxs := s.pending_revoke rid
      complete_list { s with pending_revoke := upd s.pending_revoke rid [] } idxs
    else s

-- ========== Binding ==========

def mkHandle (idx : Nat) (e : CapabilityEntry) : CapabilityHandle :=
  { index := idx, generation := e.generation, scope := e.scope,
    creation_order := e.creation_order }

/-- The `quick_cache` pre-check loop of `bind_internal` (and the grantor
lookup loops): first index in the list whose slot is Live with the given
owner and resource. -/
def find_live_idx (ro : Nat → CapabilityEntry) (pid : Nat) (rid : ResourceId) :
    List Nat → Option Nat
  | [] => none
  | i :: rest =>
    let e := ro i
    if e.state = .Live ∧ e.owner_pid = pid ∧ e.resource_id = rid then some i
    else find_live_idx ro pid rid rest

/-- The fresh-slot mutations of `bind_internal` (entry write, quick_cache,
`used_count`, borrow-state creation, scope index), for the popped slot
`idx` with remaining free list `rest`. -/
def bind_write_entry (s : CapState) (pid : Nat) (rid : ResourceId) (caps_bits : Nat)
    (scope : ScopeKind) (creation_order : Nat) (idx : Nat) (rest : List Nat) : CapState :=
  let ts := s.global_timestamp
  let s1 := { s with free_slots := rest,
                     global_timestamp := (s.global_timestamp + 1) % U64MOD }
  let entry : CapabilityEntry :=
    { resource_id := rid, owner_pid := pid, capabilities := caps_bits,
      generation := (s1.ro idx).generation, state := .Live,
      created_at := ts, creation_order := creation_order, scope := scope }
  let s2 := { s1 with
    ro := upd s1.ro idx entry,
    quick_cache := upd s1.quick_cache (pid, rid) (s1.quick_cache (pid, rid) ++ [idx]),
    used_count := s1.used_count + 1 }
  let s3 := { s2 with resource_borrows :=
    match s2.resource_borrows rid with
    | some _ => s2.resource_borrows
    | none => upd s2.resource_borrows rid (some ResourceBorrowState.new) }
  match scope with
  | .Process =>
    { s3 with process_caps := upd s3.process_caps pid (s3.process_caps pid ++ [idx]) }
  | .Thread t =>
    { s3 with thread_caps := upd s3.thread_caps t (s3.thread_caps t ++ [idx]) }
  | .Syscall t q =>
    { s3 with syscall_caps := upd s3.syscall_caps (t, q) (s3.syscall_caps (t, q) ++ [idx]) }
  | .Permanent => s3

def bind_internal (s : CapState) (pid : Nat) (rid : ResourceId) (caps_bits : Nat)
    (scope : ScopeKind) (creation_order : Nat) (parent : Option Nat) :
    Except CapError CapabilityHandle × CapState :=
  match find_live_idx s.ro pid rid (s.quick_cache (pid, rid)) with
  | some idx => (.ok (mkHandle idx (s.ro idx)), s)
  | none =>
    match s.free_slots with
    | [] => (.error .TableFull, s)
    | idx :: rest =>
      let s4 := bind_write_entry s pid rid caps_bits scope creation_order idx rest
      match parent with
      | some p =>
        if MAX_CHILDREN_PER_CAP ≤ (s4.children_of p).length then (.error .TooManyChildren, s4)
        else
          (.ok (mkHandle idx (s4.ro idx)),
           { s4 with children_of := upd s4.children_of p (s4.children_of p ++ [idx]),
                     parent_of := upd s4.parent_of idx (some p) })
      | none => (.ok (mkHandle idx (s4.ro idx)), s4)

def bind_resource_exclusive (s : CapState) (pid : Nat) (rid : ResourceId) :
    Except CapError CapabilityHandle × CapState :=
  bind_internal { s with creation_seq := (s.creation_seq + 1) % U64MOD }
    pid rid (caps.RW ||| caps.MAP) .Process s.creation_seq none

def bind_resource_scoped (s : CapState) (pid : Nat) (rid : ResourceId)
    (caps_bits : Nat) (scope : ScopeKind) :
    Except CapError CapabilityHandle × CapState :=
  bind_internal { s with creation_seq := (s.creation_seq + 1) % U64MOD }
    pid rid caps_bits scope s.creation_seq none

-- ========== Grants ==========

/-- The grantor lookup loop shared by `grant_readonly`, `grant_exclusive`
and `transfer_resource`: first Live slot in `quick_cache[(pid, rid)]`
owned by `pid` for `rid`, together with its capability bits. -/
def find_grantor (ro : Nat → CapabilityEntry) (pid : Nat) (rid : ResourceId) :
    List Nat → Option (Nat × Nat)
  | [] => none
  | i :: rest =>
    let e := ro i
    if e.state = .Live ∧ e.owner_pid = pid ∧ e.resource_id = rid then some (i, e.capabilities)
    else find_grantor ro pid rid rest

def grant_readonly (s : CapState) (grantor_pid grantee_pid : Nat) (rid : ResourceId) :
    Except CapError CapabilityHandle × CapState :=
  match find_grantor s.ro grantor_pid rid (s.quick_cache (grantor_pid, rid)) with
  | none => (.error .ResourceNotFound, s)
  | some (parent_idx, parent_caps) =>
    if parent_caps &&& caps.GRANT = 0 then (.error .PermissionDenied, s)
    else if parent_caps &&& caps.READ = 0 then (.error .PermissionDenied, s)
    else
      bind_internal { s with creation_seq := (s.creation_seq + 1) % U64MOD }
        grantee_pid rid caps.READ .Process s.creation_seq (some parent_idx)

def grant_exclusive (s : CapState) (grantor_pid grantee_pid : Nat) (rid : ResourceId) :
    Except CapError CapabilityHandle × CapState :=
  match find_grantor s.ro grantor_pid rid (s.quick_cache (grantor_pid, rid)) with
  | none => (.error .ResourceNotFound, s)
  | some (parent_idx, parent_caps) =>
    if parent_caps &&& caps.GRANT = 0 then (.error .PermissionDenied, s)
    else
      let grantable := parent_caps &&& caps.TRANSFERABLE_MASK
      if grantable &&& caps.RW ≠ caps.RW then (.error .PermissionDenied, s)
      else
        bind_internal { s with creation_seq := (s.creation_seq + 1) % U64MOD }
          grantee_pid rid (caps.RW ||| caps.MAP) .Process s.creation_seq (some parent_idx)

-- ========== Borrow API ==========

def borrow_shared_ro (s : CapState) (h : CapabilityHandle) (tid : ThreadId)
    (borrow_scope : ScopeKind) : Except CapError Unit × CapState :=
  match fast_validate s h with
  | .error e => (.error e, s)
  | .ok _ =>
    let e := s.ro h.index
    if !borrow_scope.can_borrow_from e.scope then (.error .BorrowConflict, s)
    else
      match s.resource_borrows e.resource_id with
      | none => (.error .ResourceNotFound, s)
      | some bs =>
        let r := bs.try_shared h.index tid e.capabilities
        (r.1, { s with resource_borrows := upd s.resource_borrows e.resource_id (some r.2) })

/-- `borrow_shared_from_frozen` has the same body as `borrow_shared_ro`
(the handle access-tag difference is type-level only). -/
def borrow_shared_from_frozen (s : CapState) (h : CapabilityHandle) (tid : ThreadId)
    (borrow_scope : ScopeKind) : Except CapError Unit × CapState :=
  borrow_shared_ro s h tid borrow_scope

def borrow_exclusive (s : CapState) (h : CapabilityHandle) (tid : ThreadId)
    (borrow_scope : ScopeKind) : Except CapError Unit × CapState :=
  match fast_validate s h with
  | .error e => (.error e, s)
  | .ok _ =>
    let e := s.ro h.index
    if !borrow_scope.can_borrow_from e.scope then (.error .BorrowConflict, s)
    else
      match s.resource_borrows e.resource_id with
      | none => (.error .ResourceNotFound, s)
      | some bs =>
        let r := bs.try_exclusive h.index tid borrow_scope e.capabilities e.resource_id.typ
        (r.1, { s with resource_borrows := upd s.resource_borrows e.resource_id (some r.2) })

def release_shared (s : CapState) (h : CapabilityHandle) (tid : ThreadId) :
    Except CapError Unit × CapState :=
  match fast_validate s h with
  | .error e => (.error e, s)
  | .ok _ =>
    let e := s.ro h.index
    match s.resource_borrows e.resource_id with
    | none => (.error .ResourceNotFound, s)
    | some bs =>
      match bs.release_shared h.index tid with
      | (.error er, _) => (.error er, s)
      | (.ok _, bs') =>
        (.ok (), try_complete_pending_for
          { s with resource_borrows := upd s.resource_borrows e.resource_id (some bs') }
          e.resource_id)

/-- `release_shared_frozen` has the same body as `release_shared`. -/
def release_shared_frozen (s : CapState) (h : CapabilityHandle) (tid : ThreadId) :
    Except CapError Unit × CapState :=
  release_shared s h tid

def release_exclusive (s : CapState) (h : CapabilityHandle) (tid : ThreadId) :
    Except CapError Unit × CapState :=
  match fast_validate s h with
  | .error e => (.error e, s)
  | .ok _ =>
    let e := s.ro h.index
    match s.resource_borrows e.resource_id with
    | none => (.error .ResourceNotFound, s)
    | some bs =>
      match bs.release_exclusive h.index tid with
      | (.error er, _) => (.error er, s)
      | (.ok _, bs') =>
        (.ok (), try_complete_pending_for
          { s with resource_borrows := upd s.resource_borrows e.resource_id (some bs') }
          e.resource_id)

def freeze_exclusive (s : CapState) (h : CapabilityHandle) (tid : ThreadId) :
    Except CapError CapabilityHandle × CapState :=
  match fast_validate s h with
  | .error e => (.error e, s)
  | .ok _ =>
    let e := s.ro h.index
    match s.resource_borrows e.resource_id with
    | none => (.error .ResourceNotFound, s)
    | some bs =>
      match bs.freeze h.index tid with
      | (.error er, _) => (.error er, s)
      | (.ok _, bs') =>
        (.ok h, { s with resource_borrows := upd s.resource_borrows e.resource_id (some bs') })

def unfreeze_exclusive (s : CapState) (h : CapabilityHandle) (tid : ThreadId) :
    Except CapError Unit × CapState :=
  match fast_validate s h with
  | .error e => (.error e, s)
  | .ok _ =>
    let e := s.ro h.index
    match s.resource_borrows e.resource_id with
    | none => (.error .ResourceNotFound, s)
    | some bs =>
      let r := bs.unfreeze h.index tid
      (r.1, { s with resource_borrows := upd s.resource_borrows e.resource_id (some r.2) })

-- ========== Revocation entry points ==========

def revoke_capability (s : CapState) (h : CapabilityHandle) :
    Except CapError Unit × CapState :=
  match fast_validate s h with
  | .error e => (.error e, s)
  | .ok _ => revoke_dfs_locked MAX_CAPABILITIES s h.index true

def revoke_capability_deferred (s : CapState) (h : CapabilityHandle) :
    Except CapError Unit × CapState :=
  match fast_validate s h with
  | .error e => (.error e, s)
  | .ok _ => revoke_dfs_locked MAX_CAPABILITIES s h.index false

-- ========== RAII scope hooks ==========

/-- `idxs.sort_by_key(|i| Reverse(ro[i].creation_order))`: stable sort into
descending `creation_order` (insertion sort is stable, like Rust's sort). -/
def sort_desc_by_creation (s : CapState) (idxs : List Nat) : List Nat :=
  List.insertionSort (fun a b => (s.ro b).creation_order ≤ (s.ro a).creation_order) idxs

def revoke_loop : CapState → List Nat → Nat → Nat × CapState
  | s, [], count => (count, s)
  | s, i :: rest, count =>
    if (s.ro i).state ≠ .Free then
      match revoke_dfs_locked MAX_CAPABILITIES s i true with
      | (.ok _, s') => revoke_loop s' rest (count + 1)
      | (.error _, s') => revoke_loop s' rest count
    else revoke_loop s rest count

def revoke_indices_deterministic (s : CapState) (idxs : List Nat) : Nat × CapState :=
  revoke_loop s (sort_desc_by_creation s idxs) 0

def on_process_exit (s : CapState) (pid : Nat) : Nat × CapState :=
  let idxs := s.process_caps pid
  revoke_indices_deterministic { s with process_caps := upd s.process_caps pid [] } idxs

def on_thread_exit (s : CapState) (tid : ThreadId) : Nat × CapState :=
  let idxs := s.thread_caps tid
  revoke_indices_deterministic { s with thread_caps := upd s.thread_caps tid [] } idxs

def on_syscall_return (s : CapState) (tid : ThreadId) (seq : Nat) : Nat × CapState :=
  let idxs := s.syscall_caps (tid, seq)
  revoke_indices_deterministic { s with syscall_caps := upd s.syscall_caps (tid, seq) [] } idxs

-- ========== Spec-side scope lattice (for claim C6) ==========

/-- Modelled from the spec: the containment lattice
`Syscall(t,s) ⊆ Thread(t) ⊆ Process ⊆ Permanent` (reflexive-transitive
closure of the displayed chain).  This definition follows the spec's
words, to be compared with the source's `can_borrow_from`. -/
def scopeContained (b o : ScopeKind) : Bool :=
  match b, o with
  | _, .Permanent => true
  | .Permanent, _ => false
  | _, .Process => true
  | .Process, _ => false
  | .Thread a, .Thread b => a == b
  | .Syscall a _, .Thread b => a == b
  | .Thread _, .Syscall _ _ => false
  | .Syscall a sa, .Syscall b sb => a == b && sa == sb

-- ========== Delegation-subtree membership (for frame reasoning) ==========

/-- `j` lies in the DFS tree explored from `root` within `fuel` levels of
the child map `ch` (the set of slots `revoke_dfs_locked fuel … root` can
possibly touch). -/
def subtree_mem (fuel : Nat) (ch : Nat → List Nat) (root j : Nat) : Bool :=
  match fuel with
  | 0 => false
  | fuel + 1 => root == j || (ch root).any (fun c => subtree_mem fuel ch c j)

-- ========== Physical page allocator (src/mm/physical.rs) ==========

def PAGE_SIZE : Nat := 4096
def MAX_PAGES : Nat := 65536

/-- The allocator state.  The bitmap is modelled one bit per page (the
`usize`-word packing of the source is a representation detail; the
word-major, bit-minor scan order of `alloc_raw` equals ascending page
index).  `free_pages` is a `usize` modelled with explicit `u64` wrap. -/
structure PhysAllocator where
  base : Nat
  total_pages : Nat
  free_pages : Nat
  bit_set : Nat → Bool
  owners : Nat → Nat

/-- `init(base, size)`. -/
def phys_init (base size : Nat) : PhysAllocator :=
  { base := base, total_pages := min (size / PAGE_SIZE) MAX_PAGES,
    free_pages := min (size / PAGE_SIZE) MAX_PAGES,
    bit_set := fun _ => false, owners := fun _ => 0 }

/-- Scan for the lowest clear bit among indices `i, i+1, …` while `n`
candidates remain. -/
def find_clear_from (bits : Nat → Bool) : Nat → Nat → Option Nat
  | 0, _ => none
  | n + 1, i => if bits i = false then some i else find_clear_from bits n (i + 1)

/-- Lowest clear bit of the whole `MAX_PAGES`-bit bitmap. -/
def find_clear (bits : Nat → Bool) : Option Nat :=
  find_clear_from bits MAX_PAGES 0

/-- `alloc_raw(pid)` under sequential execution (the CAS loop of the
source always succeeds on first attempt when there is no interference).
Note the source sets the bit *before* the `page_idx >= total_pages`
check, and on that path returns `None` leaving the bit set, the owner
unwritten and `free_pages` undecremented. -/
def alloc_raw (a : PhysAllocator) (pid : Nat) : Option Nat × PhysAllocator :=
  match find_clear a.bit_set with
  | none => (none, a)
  | some p =>
    let a1 := { a with bit_set := upd a.bit_set p true }
    if a.total_pages ≤ p then (none, a1)
    else
      (some (a.base + p * PAGE_SIZE),
       { a1 with owners := upd a1.owners p pid,
                 free_pages := (a1.free_pages + (U64MOD - 1)) % U64MOD })

-- ========== Borrow-machine lemmas (claim C3) ==========

/-- Whenever an exclusive borrow is held, every entry of the shared list
belongs to the exclusive holder's thread. -/
def sharedTidsMatch (bs : ResourceBorrowState) : Prop :=
  ∀ ci ti, (ci, ti) ∈ bs.shared →
    ∀ cj tj sc, bs.exclusive = some (cj, tj, sc) → ti = tj

namespace ResourceBorrowState

theorem try_shared_push_effect (bs : ResourceBorrowState) (c : Nat) (t : ThreadId) :
    (bs.try_shared_push c t).2 = bs ∨
    (bs.try_shared_push c t).2 = { bs with shared := bs.shared ++ [(c, t)] } := by
  unfold try_shared_push
  split
  · exact Or.inl rfl
  · split
    · exact Or.inl rfl
    · exact Or.inr rfl

theorem try_shared_effect (bs : ResourceBorrowState) (c : Nat) (t : ThreadId) (cb : Nat) :
    (bs.try_shared c t cb).2 = bs ∨
    ((bs.try_shared c t cb).2 = { bs with shared := bs.shared ++ [(c, t)] } ∧
      (∀ ci0 tj sc0, bs.exclusive = some (ci0, tj, sc0) → tj = t)) := by
  unfold try_shared
  cases hex : bs.exclusive with
  | some triple =>
    obtain ⟨ci0, ex_tid, sc0⟩ := triple
    dsimp only
    split
    · exact Or.inl rfl
    · split
      · exact Or.inl rfl
      · rename_i hguard
        rcases try_shared_push_effect bs c t with h | h
        · exact Or.inl h
        · rw [hex] at h
          refine Or.inr ⟨h, ?_⟩
          intro ci1 tj sc1 hsome
          cases hsome
          push_neg at hguard
          exact hguard.2
  | none =>
    dsimp only
    split
    · exact Or.inl rfl
    · rcases try_shared_push_effect bs c t with h | h
      · exact Or.inl h
      · rw [hex] at h
        refine Or.inr ⟨h, ?_⟩
        intro ci1 tj sc1 hsome
        cases hsome

theorem try_exclusive_effect (bs : ResourceBorrowState) (c : Nat) (t : ThreadId)
    (sc : ScopeKind) (cb : Nat) (rty : ResourceType) :
    (bs.try_exclusive c t sc cb rty).2 = bs ∨
    ((bs.try_exclusive c t sc cb rty).2 = { bs with exclusive := some (c, t, sc) } ∧
      bs.shared = []) := by
  unfold try_exclusive
  dsimp only
  split
  · exact Or.inl rfl
  · split
    · exact Or.inl rfl
    · rename_i hguard
      refine Or.inr ⟨rfl, ?_⟩
      simp only [Bool.or_eq_true, not_or, Bool.not_eq_true] at hguard
      have := hguard.1.2
      simpa [List.isEmpty_iff] using this

theorem release_shared_effect (bs : ResourceBorrowState) (c : Nat) (t : ThreadId) :
    (∀ x, x ∈ (bs.release_shared c t).2.shared → x ∈ bs.shared) ∧
    (bs.release_shared c t).2.exclusive = bs.exclusive := by
  unfold release_shared
  cases hf : bs.shared.findIdx? (fun p => p.1 == c && p.2 == t) with
  | none => exact ⟨fun x hx => hx, rfl⟩
  | some i =>
    refine ⟨fun x hx => ?_, rfl⟩
    simp only [swap_remove] at hx
    cases hg : bs.shared.getLast? with
    | none =>
      rw [List.getLast?_eq_none_iff] at hg
      rw [hg] at hx
      simp at hx
    | some a =>
      rw [hg] at hx
      have hx' := (List.dropLast_sublist _).mem hx
      rcases List.mem_or_eq_of_mem_set hx' with h | h
      · exact h
      · subst h
        cases hl : bs.shared with
        | nil => rw [hl] at hg; simp at hg
        | cons y ys =>
          rw [← hl]
          have hne : bs.shared ≠ [] := by rw [hl]; simp
          have := List.getLast?_eq_getLast bs.shared hne
          rw [this] at hg
          exact (Option.some_inj.mp hg) ▸ List.getLast_mem hne

theorem release_exclusive_effect (bs : ResourceBorrowState) (c : Nat) (t : ThreadId) :
    (bs.release_exclusive c t).2 = bs ∨
    (bs.release_exclusive c t).2 = { bs with exclusive := none } := by
  unfold release_exclusive
  cases bs.exclusive with
  | some triple =>
    obtain ⟨i, tt, sc⟩ := triple
    dsimp only
    split
    · split
      · exact Or.inl rfl
      · exact Or.inr rfl
    · exact Or.inl rfl
  | none => exact Or.inl rfl

theorem freeze_effect (bs : ResourceBorrowState) (c : Nat) (t : ThreadId) :
    (bs.freeze c t).2.shared = bs.shared ∧ (bs.freeze c t).2.exclusive = bs.exclusive := by
  unfold freeze
  cases hex : bs.exclusive with
  | some triple =>
    obtain ⟨i, tt, sc⟩ := triple
    dsimp only
    split <;> simp [hex]
  | none => simp [hex]

theorem unfreeze_effect (bs : ResourceBorrowState) (c : Nat) (t : ThreadId) :
    (bs.unfreeze c t).2.shared = bs.shared ∧ (bs.unfreeze c t).2.exclusive = bs.exclusive := by
  unfold unfreeze
  cases hex : bs.exclusive with
  | some triple =>
    obtain ⟨i, tt, sc⟩ := triple
    dsimp only
    split
    · split <;> simp [hex]
    · simp [hex]
  | none => simp [hex]

end ResourceBorrowState

theorem sharedTidsMatch_step (bs : ResourceBorrowState) (op : BorrowOp)
    (h : sharedTidsMatch bs) : sharedTidsMatch (BorrowOp.step bs op) := by
  cases op with
  | tryShared c t cb =>
    rcases ResourceBorrowState.try_shared_effect bs c t cb with he | ⟨he, hg⟩
    · rw [BorrowOp.step, he]; exact h
    · rw [BorrowOp.step, he]
      intro ci ti hmem cj tj sc hex
      simp only [List.mem_append, List.mem_singleton] at hmem
      rcases hmem with hmem | hmem
      · exact h ci ti hmem cj tj sc hex
      · cases hmem
        exact (hg cj tj sc hex).symm
  | tryExclusive c t sc cb rty =>
    rcases ResourceBorrowState.try_exclusive_effect bs c t sc cb rty with he | ⟨he, hsh⟩
    · rw [BorrowOp.step, he]; exact h
    · rw [BorrowOp.step, he]
      intro ci ti hmem cj tj sc' hex
      simp only [hsh] at hmem
      simp at hmem
  | releaseShared c t =>
    have he := ResourceBorrowState.release_shared_effect bs c t
    intro ci ti hmem cj tj sc hex
    rw [BorrowOp.step] at hmem hex
    rw [he.2] at hex
    exact h ci ti (he.1 _ hmem) cj tj sc hex
  | releaseExclusive c t =>
    rcases ResourceBorrowState.release_exclusive_effect bs c t with he | he
    · rw [BorrowOp.step, he]; exact h
    · rw [BorrowOp.step, he]
      intro ci ti hmem cj tj sc hex
      simp at hex
  | freeze c t =>
    have he := ResourceBorrowState.freeze_effect bs c t
    intro ci ti hmem cj tj sc hex
    rw [BorrowOp.step] at hmem hex
    rw [he.1] at hmem
    rw [he.2] at hex
    exact h ci ti hmem cj tj sc hex
  | unfreeze c t =>
    have he := ResourceBorrowState.unfreeze_effect bs c t
    intro ci ti hmem cj tj sc hex
    rw [BorrowOp.step] at hmem hex
    rw [he.1] at hmem
    rw [he.2] at hex
    exact h ci ti hmem cj tj sc hex

theorem sharedTidsMatch_foldl (ops : List BorrowOp) :
    ∀ bs, sharedTidsMatch bs → sharedTidsMatch (ops.foldl BorrowOp.step bs) := by
  induction ops with
  | nil => intro bs h; exact h
  | cons op rest ih =>
    intro bs h
    exact ih _ (sharedTidsMatch_step bs op h)

-- ========== Claim C3 ==========

/-- The request sequence exclusive-borrow, freeze, same-thread shared
re-borrow, unfreeze. -/
def c3seq : List BorrowOp :=
  [.tryExclusive 0 7 .Process (caps.RW ||| caps.MAP) .PhysicalPage,
   .freeze 0 7,
   .tryShared 0 7 caps.READ,
   .unfreeze 0 7]

/-- C3 (counterexample): the state with `exclusive = Some(_)`,
`frozen_count = 0` and a non-empty shared list is reachable from the
empty borrow state: take an exclusive borrow, freeze it, take a
same-thread shared re-borrow, then unfreeze while the re-borrow is
still outstanding (`unfreeze` does not check the shared list). -/
theorem c3_counterexample :
    (borrowRun c3seq).exclusive.isSome = true ∧
    (borrowRun c3seq).frozen_count = 0 ∧
    (borrowRun c3seq).shared ≠ [] := by decide

/-- C3 (amended): for every request sequence from the empty borrow state,
whenever `exclusive = Some((_, t, _))`, every entry of the shared list
belongs to thread `t`.  (The original combination `exclusive = Some(_)`,
`frozen_count = 0`, shared non-empty is reachable, but only with shared
entries of the exclusive holder's own thread.) -/
theorem c3_amended (ops : List BorrowOp) : sharedTidsMatch (borrowRun ops) := by
  apply sharedTidsMatch_foldl
  intro ci ti hmem cj tj sc hex
  simp [ResourceBorrowState.new] at hmem

/-- Witness: the amended invariant evaluated on the counterexample
sequence: the surviving shared entry belongs to thread 7, the exclusive
holder. -/
theorem c3_amended_witness : sharedTidsMatch (borrowRun c3seq) := c3_amended c3seq

instance {ε α : Type} [DecidableEq ε] [DecidableEq α] : DecidableEq (Except ε α) := fun a b =>
  match a, b with
  | .ok x, .ok y =>
    if h : x = y then .isTrue (by rw [h]) else .isFalse (by intro he; cases he; exact h rfl)
  | .error x, .error y =>
    if h : x = y then .isTrue (by rw [h]) else .isFalse (by intro he; cases he; exact h rfl)
  | .ok _, .error _ => .isFalse (by intro he; cases he)
  | .error _, .ok _ => .isFalse (by intro he; cases he)

-- ========== Claim C6 ==========

def c6rid : ResourceId := ⟨0, .PhysicalPage⟩

/-- A Live, Process-scoped, READ capability slot for pid 1. -/
def c6entry : CapabilityEntry :=
  { resource_id := c6rid, owner_pid := 1, capabilities := caps.READ,
    generation := 0, state := .Live, created_at := 0, creation_order := 0,
    scope := .Process }

def c6state : CapState :=
  { initState with
      ro := upd initState.ro 0 c6entry,
      free_slots := [1],
      quick_cache := upd initState.quick_cache (1, c6rid) [0],
      resource_borrows := upd initState.resource_borrows c6rid (some .new),
      used_count := 1 }

def c6handle : CapabilityHandle := mkHandle 0 c6entry

/-- Same table but the capability is Thread(5)-scoped (for the witness). -/
def c6entryT : CapabilityEntry := { c6entry with scope := .Thread 5 }

def c6stateT : CapState := { c6state with ro := upd initState.ro 0 c6entryT }

def c6handleT : CapabilityHandle := mkHandle 0 c6entryT

/-- C6 (counterexample): a shared borrow with borrower scope `Permanent`
from a `Process`-scoped capability is accepted by `borrow_shared_ro`,
although `Permanent ⊄ Process` in the spec's containment lattice (the
source's `can_borrow_from` accepts *any* borrower scope when the owner
scope is `Process`). -/
theorem c6_counterexample :
    (borrow_shared_ro c6state c6handle 7 .Permanent).1 = .ok () ∧
    scopeContained .Permanent .Process = false := by decide

/-- C6 (amended): `can_borrow_from B O` agrees with the containment
lattice `B ⊆ O` except that a `Permanent`-scoped borrower is also
accepted from a `Process`-scoped capability; and every borrow operation
rejects a scope pair with `can_borrow_from B O = false` with
`BorrowConflict` (shown for `borrow_shared_ro`, whose body
`borrow_shared_from_frozen` shares; `borrow_exclusive` has the same
guard). -/
theorem c6_amended :
    (∀ b o : ScopeKind, ScopeKind.can_borrow_from b o =
        (scopeContained b o || (b == ScopeKind.Permanent && o == ScopeKind.Process))) ∧
    (∀ (s : CapState) (h : CapabilityHandle) (tid : ThreadId) (bsc : ScopeKind),
       fast_validate s h = .ok () →
       bsc.can_borrow_from (s.ro h.index).scope = false →
       borrow_shared_ro s h tid bsc = (.error .BorrowConflict, s)) := by
  constructor
  · intro b o
    cases b <;> cases o <;> simp [ScopeKind.can_borrow_from, scopeContained]
  · intro s h tid bsc hv hc
    unfold borrow_shared_ro
    rw [hv]
    dsimp only
    rw [hc]
    simp

/-- Witness for the amended claim: the lattice characterization at the
pair `(Thread 3, Thread 4)` and an actual rejection of a `Thread 9`
borrow from a `Thread 5`-scoped capability. -/
theorem c6_amended_witness :
    ScopeKind.can_borrow_from (.Thread 3) (.Thread 4) =
      (scopeContained (.Thread 3) (.Thread 4) ||
        (ScopeKind.Thread 3 == ScopeKind.Permanent && ScopeKind.Thread 4 == ScopeKind.Process)) ∧
    borrow_shared_ro c6stateT c6handleT 7 (.Thread 9) = (.error .BorrowConflict, c6stateT) :=
  ⟨c6_amended.1 (.Thread 3) (.Thread 4),
   c6_amended.2 c6stateT c6handleT 7 (.Thread 9) (by decide) (by decide)⟩

-- ========== Claim C7 ==========

theorem find_clear_from_spec (bits : Nat → Bool) :
    ∀ n i p, find_clear_from bits n i = some p →
      bits p = false ∧ i ≤ p ∧ ∀ q, i ≤ q → q < p → bits q = true := by
  intro n
  induction n with
  | zero => intro i p h; simp [find_clear_from] at h
  | succ n ih =>
    intro i p h
    rw [find_clear_from] at h
    split at h
    · rename_i hb
      cases h
      exact ⟨hb, Nat.le_refl _, fun q h1 h2 => by omega⟩
    · rename_i hb
      obtain ⟨h1, h2, h3⟩ := ih (i + 1) p h
      have hbi : bits i = true := by
        cases hbv : bits i
        · exact absurd hbv hb
        · rfl
      refine ⟨h1, by omega, fun q hq1 hq2 => ?_⟩
      rcases Nat.eq_or_lt_of_le hq1 with heq | hlt
      · cases heq; exact hbi
      · exact h3 q (by omega) hq2

theorem find_clear_from_none (bits : Nat → Bool) :
    ∀ n i, find_clear_from bits n i = none →
      ∀ q, i ≤ q → q < i + n → bits q = true := by
  intro n
  induction n with
  | zero => intro i _ q h1 h2; omega
  | succ n ih =>
    intro i h q h1 h2
    rw [find_clear_from] at h
    split at h
    · cases h
    · rename_i hb
      have hbi : bits i = true := by
        cases hbv : bits i
        · exact absurd hbv hb
        · rfl
      rcases Nat.eq_or_lt_of_le h1 with heq | hlt
      · cases heq; exact hbi
      · exact ih (i + 1) h q (by omega) (by omega)

/-- C7 (amended): `alloc_raw` characterized.  When the lowest clear bit
`p` of the whole bitmap satisfies `p < total_pages`, the allocation
succeeds exactly as the claim says; but when the lowest clear bit lies
at or beyond `total_pages`, the call returns `None` even though a bit
was clear, setting that bit as a side effect and leaving `owners` and
`free_pages` untouched.  `None` with no side effect happens only when no
bit at all is clear. -/
theorem c7_amended (a : PhysAllocator) (pid : Nat) :
    (find_clear a.bit_set = none →
       alloc_raw a pid = (none, a) ∧ ∀ q, q < MAX_PAGES → a.bit_set q = true) ∧
    (∀ p, find_clear a.bit_set = some p →
       (a.bit_set p = false ∧ (∀ q, q < p → a.bit_set q = true)) ∧
       (p < a.total_pages →
          (alloc_raw a pid).1 = some (a.base + p * PAGE_SIZE) ∧
          (alloc_raw a pid).2.bit_set p = true ∧
          (alloc_raw a pid).2.owners p = pid ∧
          (0 < a.free_pages → a.free_pages < U64MOD →
             (alloc_raw a pid).2.free_pages = a.free_pages - 1)) ∧
       (a.total_pages ≤ p →
          (alloc_raw a pid).1 = none ∧
          (alloc_raw a pid).2.bit_set p = true ∧
          (alloc_raw a pid).2.free_pages = a.free_pages ∧
          (alloc_raw a pid).2.owners = a.owners)) := by
  constructor
  · intro hn
    constructor
    · unfold alloc_raw
      rw [hn]
    · intro q hq
      exact find_clear_from_none a.bit_set MAX_PAGES 0 hn q (Nat.zero_le _) (by omega)
  · intro p hp
    obtain ⟨h1, _, h3⟩ := find_clear_from_spec a.bit_set MAX_PAGES 0 p hp
    refine ⟨⟨h1, fun q hq => h3 q (Nat.zero_le _) hq⟩, ?_, ?_⟩
    · intro hlt
      unfold alloc_raw
      rw [hp]
      dsimp only
      rw [if_neg (by omega)]
      refine ⟨rfl, by simp [upd_same], by simp [upd_same], ?_⟩
      intro hfp1 hfp2
      simp only [U64MOD] at hfp2 ⊢
      omega
    · intro hge
      unfold alloc_raw
      rw [hp]
      dsimp only
      rw [if_pos hge]
      exact ⟨rfl, by simp [upd_same], rfl, rfl⟩

/-- A one-page allocator, freshly initialized, then one allocation. -/
def c7alloc0 : PhysAllocator := phys_init 0 PAGE_SIZE
def c7alloc1 : PhysAllocator := (alloc_raw c7alloc0 5).2

/-- C7 (counterexample): after the single page of a one-page allocator is
allocated, bit 1 of the bitmap is still clear (the bitmap always spans
`MAX_PAGES` bits and `init` clears them all), yet `alloc_raw` returns
`None`: the claim "returns None only when no bit is clear" fails.  The
call also sets bit 1 as a side effect. -/
theorem c7_counterexample :
    (alloc_raw c7alloc1 6).1 = none ∧
    c7alloc1.bit_set 1 = false ∧
    find_clear c7alloc1.bit_set = some 1 ∧
    (alloc_raw c7alloc1 6).2.bit_set 1 = true := by decide

/-- Witness for the amended claim: both branches exercised on the
one-page allocator. -/
theorem c7_amended_witness :
    (alloc_raw c7alloc0 5).1 = some (c7alloc0.base + 0 * PAGE_SIZE) ∧
    (alloc_raw c7alloc0 5).2.owners 0 = 5 ∧
    (alloc_raw c7alloc0 5).2.free_pages = c7alloc0.free_pages - 1 ∧
    (alloc_raw c7alloc1 6).1 = none ∧
    (alloc_raw c7alloc1 6).2.owners = c7alloc1.owners := by
  have h0 := ((c7_amended c7alloc0 5).2 0 (by decide)).2.1 (by decide)
  have h1 := ((c7_amended c7alloc1 6).2 1 (by decide)).2.2 (by decide)
  exact ⟨h0.1, h0.2.2.1, h0.2.2.2 (by decide) (by decide), h1.1, h1.2.2.2⟩

-- ========== bind_internal helper lemmas ==========

/-- The fresh-slot entry actually written by `bind_write_entry`. -/
def written_entry (s : CapState) (pid : Nat) (rid : ResourceId) (caps_bits : Nat)
    (scope : ScopeKind) (creation_order : Nat) (idx : Nat) : CapabilityEntry :=
  { resource_id := rid, owner_pid := pid, capabilities := caps_bits,
    generation := (s.ro idx).generation, state := .Live,
    created_at := s.global_timestamp, creation_order := creation_order, scope := scope }

theorem bind_write_entry_ro (s : CapState) (pid : Nat) (rid : ResourceId) (cb : Nat)
    (scope : ScopeKind) (co : Nat) (idx : Nat) (rest : List Nat) :
    (bind_write_entry s pid rid cb scope co idx rest).ro =
      upd s.ro idx (written_entry s pid rid cb scope co idx) := by
  unfold bind_write_entry written_entry
  cases scope <;> rfl

theorem bind_write_entry_children (s : CapState) (pid : Nat) (rid : ResourceId) (cb : Nat)
    (scope : ScopeKind) (co : Nat) (idx : Nat) (rest : List Nat) :
    (bind_write_entry s pid rid cb scope co idx rest).children_of = s.children_of := by
  unfold bind_write_entry
  cases scope <;> rfl

theorem bind_write_entry_parent (s : CapState) (pid : Nat) (rid : ResourceId) (cb : Nat)
    (scope : ScopeKind) (co : Nat) (idx : Nat) (rest : List Nat) :
    (bind_write_entry s pid rid cb scope co idx rest).parent_of = s.parent_of := by
  unfold bind_write_entry
  cases scope <;> rfl

theorem bind_internal_hit (s : CapState) (pid : Nat) (rid : ResourceId) (cb : Nat)
    (scope : ScopeKind) (co : Nat) (parent : Option Nat) (idx : Nat)
    (hfind : find_live_idx s.ro pid rid (s.quick_cache (pid, rid)) = some idx) :
    bind_internal s pid rid cb scope co parent = (.ok (mkHandle idx (s.ro idx)), s) := by
  unfold bind_internal
  rw [hfind]

theorem bind_internal_fresh_none (s : CapState) (pid : Nat) (rid : ResourceId) (cb : Nat)
    (scope : ScopeKind) (co : Nat) (idx : Nat) (rest : List Nat)
    (hfresh : find_live_idx s.ro pid rid (s.quick_cache (pid, rid)) = none)
    (hfs : s.free_slots = idx :: rest) :
    bind_internal s pid rid cb scope co none =
      (.ok (mkHandle idx ((bind_write_entry s pid rid cb scope co idx rest).ro idx)),
       bind_write_entry s pid rid cb scope co idx rest) := by
  unfold bind_internal
  rw [hfresh, hfs]

theorem bind_internal_fresh_parent (s : CapState) (pid : Nat) (rid : ResourceId) (cb : Nat)
    (scope : ScopeKind) (co : Nat) (idx : Nat) (rest : List Nat) (p : Nat)
    (hfresh : find_live_idx s.ro pid rid (s.quick_cache (pid, rid)) = none)
    (hfs : s.free_slots = idx :: rest)
    (hch : (s.children_of p).length < MAX_CHILDREN_PER_CAP) :
    bind_internal s pid rid cb scope co (some p) =
      (.ok (mkHandle idx ((bind_write_entry s pid rid cb scope co idx rest).ro idx)),
       { bind_write_entry s pid rid cb scope co idx rest with
           children_of := upd (bind_write_entry s pid rid cb scope co idx rest).children_of p
             ((bind_write_entry s pid rid cb scope co idx rest).children_of p ++ [idx]),
           parent_of := upd (bind_write_entry s pid rid cb scope co idx rest).parent_of idx
             (some p) }) := by
  have hc2 : ¬ MAX_CHILDREN_PER_CAP ≤
      ((bind_write_entry s pid rid cb scope co idx rest).children_of p).length := by
    rw [bind_write_entry_children]
    omega
  unfold bind_internal
  rw [hfresh, hfs]
  simp only []
  rw [if_neg hc2]

/-- Success of `bind_internal` with a fresh grantee forces the fresh-slot
path: there was a free slot, the handle points at it, and its entry is
the written one. -/
theorem bind_internal_ok_fresh (s : CapState) (pid : Nat) (rid : ResourceId) (cb : Nat)
    (scope : ScopeKind) (co : Nat) (parent : Option Nat) (h : CapabilityHandle)
    (s' : CapState)
    (hfresh : find_live_idx s.ro pid rid (s.quick_cache (pid, rid)) = none)
    (hok : bind_internal s pid rid cb scope co parent = (.ok h, s')) :
    ∃ idx rest, s.free_slots = idx :: rest ∧ h.index = idx ∧
      s'.ro idx = written_entry s pid rid cb scope co idx := by
  unfold bind_internal at hok
  rw [hfresh] at hok
  cases hfs : s.free_slots with
  | nil => rw [hfs] at hok; simp at hok
  | cons idx rest =>
    rw [hfs] at hok
    simp only [] at hok
    refine ⟨idx, rest, rfl, ?_⟩
    cases parent with
    | none =>
      rw [Prod.mk.injEq] at hok
      obtain ⟨h1, h2⟩ := hok
      rw [Except.ok.injEq] at h1
      subst h1
      subst h2
      exact ⟨rfl, by rw [bind_write_entry_ro, upd_same]⟩
    | some p =>
      rw [Prod.mk.injEq] at hok
      by_cases hlen : MAX_CHILDREN_PER_CAP ≤
          ((bind_write_entry s pid rid cb scope co idx rest).children_of p).length
      · rw [if_pos hlen] at hok
        simp at hok
      · rw [if_neg hlen] at hok
        obtain ⟨h1, h2⟩ := hok
        rw [Except.ok.injEq] at h1
        subst h1
        subst h2
        exact ⟨rfl, by rw [bind_write_entry_ro, upd_same]⟩

-- ========== Claim C5 ==========

theorem read_in_transferable (x : Nat) (hx : x &&& caps.READ ≠ 0) :
    caps.READ &&& (x &&& caps.TRANSFERABLE_MASK) = caps.READ := by
  have hTM : caps.TRANSFERABLE_MASK = 31 := by decide
  have hR : caps.READ = 1 := by decide
  rw [hTM, hR]
  rw [Nat.land_comm 1 (x &&& 31), Nat.and_one_is_mod]
  have h2 : x &&& 31 = x % 32 := by
    simpa using Nat.and_pow_two_sub_one_eq_mod x 5
  rw [h2]
  rw [hR, Nat.and_one_is_mod] at hx
  omega

theorem find_grantor_spec (ro : Nat → CapabilityEntry) (pid : Nat) (rid : ResourceId) :
    ∀ l i c, find_grantor ro pid rid l = some (i, c) →
      (ro i).state = .Live ∧ (ro i).owner_pid = pid ∧ (ro i).resource_id = rid ∧
      c = (ro i).capabilities := by
  intro l
  induction l with
  | nil => intro i c h; simp [find_grantor] at h
  | cons x xs ih =>
    intro i c h
    rw [find_grantor] at h
    split at h
    · rename_i hcond
      rw [Option.some_inj, Prod.mk.injEq] at h
      obtain ⟨h1, h2⟩ := h
      subst h1
      subst h2
      exact ⟨hcond.1, hcond.2.1, hcond.2.2, rfl⟩
    · exact ih i c h

def c5rid : ResourceId := ⟨1, .PhysicalPage⟩

/-- Grantor slot: pid 1 holds READ|WRITE|GRANT (no MAP) for `c5rid`. -/
def c5grantor : CapabilityEntry :=
  { resource_id := c5rid, owner_pid := 1,
    capabilities := caps.READ ||| caps.WRITE ||| caps.GRANT,
    generation := 0, state := .Live, created_at := 0, creation_order := 0,
    scope := .Process }

def c5state : CapState :=
  { initState with
      ro := upd initState.ro 0 c5grantor,
      free_slots := [1, 2],
      quick_cache := upd initState.quick_cache (1, c5rid) [0],
      resource_borrows := upd initState.resource_borrows c5rid (some .new),
      used_count := 1 }

/-- C5 (counterexample): the grantor holds `READ|WRITE|GRANT` but not
`MAP`, yet `grant_exclusive` succeeds and writes `READ|WRITE|MAP` into
the grantee's slot — not a subset of the grantor's bits intersected with
`TRANSFERABLE_MASK` (the code only checks `RW ⊆ grantable` and grants
`MAP` unconditionally). -/
theorem c5_counterexample :
    (grant_exclusive c5state 1 2 c5rid).1 = .ok ⟨1, 0, .Process, 0⟩ ∧
    ((grant_exclusive c5state 1 2 c5rid).2.ro 1).capabilities = (caps.RW ||| caps.MAP) ∧
    c5grantor.capabilities &&& caps.MAP = 0 ∧
    ¬ (((grant_exclusive c5state 1 2 c5rid).2.ro 1).capabilities &&&
         (c5grantor.capabilities &&& caps.TRANSFERABLE_MASK) =
       ((grant_exclusive c5state 1 2 c5rid).2.ro 1).capabilities) := by decide

/-- C5 (amended): a successful `grant_readonly` requires the grantor to
hold a Live capability for `rid` with `GRANT` and `READ`, and writes
exactly `READ` — a subset of the grantor's transferable bits — into the
grantee's fresh slot; a successful `grant_exclusive` requires `GRANT`
and `READ|WRITE` among the grantor's transferable bits and writes
exactly `READ|WRITE|MAP`, where `MAP` is granted without checking the
grantor holds it.  The `GRANT` bit is never set on the grantee's slot. -/
theorem c5_amended :
    (∀ (s : CapState) (a b : Nat) (rid : ResourceId) (h : CapabilityHandle) (s' : CapState),
       find_live_idx s.ro b rid (s.quick_cache (b, rid)) = none →
       grant_readonly s a b rid = (.ok h, s') →
       ∃ pIdx pCaps,
         find_grantor s.ro a rid (s.quick_cache (a, rid)) = some (pIdx, pCaps) ∧
         (s.ro pIdx).state = .Live ∧ (s.ro pIdx).owner_pid = a ∧
         (s.ro pIdx).resource_id = rid ∧ pCaps = (s.ro pIdx).capabilities ∧
         pCaps &&& caps.GRANT ≠ 0 ∧ pCaps &&& caps.READ ≠ 0 ∧
         (s'.ro h.index).capabilities = caps.READ ∧
         caps.READ &&& (pCaps &&& caps.TRANSFERABLE_MASK) = caps.READ ∧
         caps.READ &&& caps.GRANT = 0) ∧
    (∀ (s : CapState) (a b : Nat) (rid : ResourceId) (h : CapabilityHandle) (s' : CapState),
       find_live_idx s.ro b rid (s.quick_cache (b, rid)) = none →
       grant_exclusive s a b rid = (.ok h, s') →
       ∃ pIdx pCaps,
         find_grantor s.ro a rid (s.quick_cache (a, rid)) = some (pIdx, pCaps) ∧
         (s.ro pIdx).state = .Live ∧ (s.ro pIdx).owner_pid = a ∧
         (s.ro pIdx).resource_id = rid ∧ pCaps = (s.ro pIdx).capabilities ∧
         pCaps &&& caps.GRANT ≠ 0 ∧
         (pCaps &&& caps.TRANSFERABLE_MASK) &&& caps.RW = caps.RW ∧
         (s'.ro h.index).capabilities = (caps.RW ||| caps.MAP) ∧
         (caps.RW ||| caps.MAP) &&& caps.GRANT = 0) := by
  constructor
  · intro s a b rid h s' hfresh hok
    unfold grant_readonly at hok
    cases hg : find_grantor s.ro a rid (s.quick_cache (a, rid)) with
    | none => rw [hg] at hok; simp at hok
    | some pc =>
      obtain ⟨pIdx, pCaps⟩ := pc
      rw [hg] at hok
      simp only [] at hok
      by_cases h1 : pCaps &&& caps.GRANT = 0
      · rw [if_pos h1] at hok; simp at hok
      · rw [if_neg h1] at hok
        by_cases h2 : pCaps &&& caps.READ = 0
        · rw [if_pos h2] at hok; simp at hok
        · rw [if_neg h2] at hok
          obtain ⟨idx, rest, hfs, hidx, hro⟩ :=
            bind_internal_ok_fresh { s with creation_seq := (s.creation_seq + 1) % U64MOD }
              b rid caps.READ .Process s.creation_seq (some pIdx) h s' hfresh hok
          obtain ⟨hl, ho, hr, hc⟩ := find_grantor_spec s.ro a rid _ pIdx pCaps hg
          refine ⟨pIdx, pCaps, rfl, hl, ho, hr, hc, h1, h2, ?_, ?_, by decide⟩
          · rw [hidx, hro]
            rfl
          · exact read_in_transferable pCaps h2
  · intro s a b rid h s' hfresh hok
    unfold grant_exclusive at hok
    cases hg : find_grantor s.ro a rid (s.quick_cache (a, rid)) with
    | none => rw [hg] at hok; simp at hok
    | some pc =>
      obtain ⟨pIdx, pCaps⟩ := pc
      rw [hg] at hok
      simp only [] at hok
      by_cases h1 : pCaps &&& caps.GRANT = 0
      · rw [if_pos h1] at hok; simp at hok
      · rw [if_neg h1] at hok
        by_cases h2 : (pCaps &&& caps.TRANSFERABLE_MASK) &&& caps.RW ≠ caps.RW
        · rw [if_pos h2] at hok; simp at hok
        · rw [if_neg h2] at hok
          push_neg at h2
          obtain ⟨idx, rest, hfs, hidx, hro⟩ :=
            bind_internal_ok_fresh { s with creation_seq := (s.creation_seq + 1) % U64MOD }
              b rid (caps.RW ||| caps.MAP) .Process s.creation_seq (some pIdx) h s' hfresh hok
          obtain ⟨hl, ho, hr, hc⟩ := find_grantor_spec s.ro a rid _ pIdx pCaps hg
          refine ⟨pIdx, pCaps, rfl, hl, ho, hr, hc, h1, h2, ?_, by decide⟩
          rw [hidx, hro]
          rfl

/-- Witness: both amended grant characterizations applied to the
concrete table `c5state` (grantor bits `READ|WRITE|GRANT`). -/
theorem c5_amended_witness :
    (∃ pIdx pCaps,
       find_grantor c5state.ro 1 c5rid (c5state.quick_cache (1, c5rid)) = some (pIdx, pCaps) ∧
       (c5state.ro pIdx).state = .Live ∧ (c5state.ro pIdx).owner_pid = 1 ∧
       (c5state.ro pIdx).resource_id = c5rid ∧ pCaps = (c5state.ro pIdx).capabilities ∧
       pCaps &&& caps.GRANT ≠ 0 ∧ pCaps &&& caps.READ ≠ 0 ∧
       (((grant_readonly c5state 1 2 c5rid).2).ro
           (⟨1, 0, .Process, 0⟩ : CapabilityHandle).index).capabilities = caps.READ ∧
       caps.READ &&& (pCaps &&& caps.TRANSFERABLE_MASK) = caps.READ ∧
       caps.READ &&& caps.GRANT = 0) ∧
    (∃ pIdx pCaps,
       find_grantor c5state.ro 1 c5rid (c5state.quick_cache (1, c5rid)) = some (pIdx, pCaps) ∧
       (c5state.ro pIdx).state = .Live ∧ (c5state.ro pIdx).owner_pid = 1 ∧
       (c5state.ro pIdx).resource_id = c5rid ∧ pCaps = (c5state.ro pIdx).capabilities ∧
       pCaps &&& caps.GRANT ≠ 0 ∧
       (pCaps &&& caps.TRANSFERABLE_MASK) &&& caps.RW = caps.RW ∧
       (((grant_exclusive c5state 1 2 c5rid).2).ro
           (⟨1, 0, .Process, 0⟩ : CapabilityHandle).index).capabilities = (caps.RW ||| caps.MAP) ∧
       (caps.RW ||| caps.MAP) &&& caps.GRANT = 0) := by
  have hro1 : (grant_readonly c5state 1 2 c5rid).1 = .ok ⟨1, 0, .Process, 0⟩ := by decide
  have hok1 : grant_readonly c5state 1 2 c5rid =
      (.ok ⟨1, 0, .Process, 0⟩, (grant_readonly c5state 1 2 c5rid).2) := by rw [← hro1]
  have hex1 : (grant_exclusive c5state 1 2 c5rid).1 = .ok ⟨1, 0, .Process, 0⟩ := by decide
  have hok2 : grant_exclusive c5state 1 2 c5rid =
      (.ok ⟨1, 0, .Process, 0⟩, (grant_exclusive c5state 1 2 c5rid).2) := by rw [← hex1]
  exact ⟨c5_amended.1 c5state 1 2 c5rid ⟨1, 0, .Process, 0⟩ _ (by decide) hok1,
         c5_amended.2 c5state 1 2 c5rid ⟨1, 0, .Process, 0⟩ _ (by decide) hok2⟩

-- ========== Claim C9 ==========

/-- C9 (confirmed): when `quick_cache[(pid, rid)]` already yields a Live
slot `idx` for `(pid, rid)`, `bind_resource_exclusive` returns a handle
to that slot and leaves the whole slot array (hence the slot's
capabilities, generation, scope and creation_order) unchanged; the
requested `RW|MAP` bits are not added. -/
theorem c9_confirmed (s : CapState) (pid : Nat) (rid : ResourceId) (idx : Nat)
    (hfind : find_live_idx s.ro pid rid (s.quick_cache (pid, rid)) = some idx) :
    (bind_resource_exclusive s pid rid).1 = .ok (mkHandle idx (s.ro idx)) ∧
    (bind_resource_exclusive s pid rid).2.ro = s.ro := by
  have h := bind_internal_hit { s with creation_seq := (s.creation_seq + 1) % U64MOD }
    pid rid (caps.RW ||| caps.MAP) .Process s.creation_seq none idx hfind
  unfold bind_resource_exclusive
  rw [h]
  exact ⟨rfl, rfl⟩

/-- Witness: on a table whose only Live `(1, c6rid)` slot carries just
`READ`, `bind_resource_exclusive` returns that slot unchanged — the
Exclusive-typed handle refers to a READ-only slot. -/
theorem c9_confirmed_witness :
    (bind_resource_exclusive c6state 1 c6rid).1 = .ok (mkHandle 0 (c6state.ro 0)) ∧
    (bind_resource_exclusive c6state 1 c6rid).2.ro = c6state.ro ∧
    (c6state.ro 0).capabilities = caps.READ :=
  ⟨(c9_confirmed c6state 1 c6rid 0 (by decide)).1,
   (c9_confirmed c6state 1 c6rid 0 (by decide)).2, by decide⟩

-- ========== Shape lemmas for the revocation helpers ==========

/-- The freed entry written at `idx` by `free_slot_locked`: generation
bumped mod `2^32`, state `Free`, every other field untouched. -/
def freed_entry (s : CapState) (idx : Nat) : CapabilityEntry :=
  { s.ro idx with generation := ((s.ro idx).generation + 1) % U32MOD, state := .Free }

theorem qc_remove_shape (s : CapState) (pid : Nat) (rid : ResourceId) (idx : Nat) :
    qc_remove_idx s pid rid idx = { s with quick_cache := upd s.quick_cache (pid, rid) ((s.quick_cache (pid, rid)).filter (fun x => x ≠ idx)) } :=
  rfl

theorem scope_remove_shape (s : CapState) (scope : ScopeKind) (idx : Nat) :
    ∃ tc sc, scope_remove_idx s scope idx = { s with thread_caps := tc, syscall_caps := sc } ∧
      (∀ t, tc t ⊆ s.thread_caps t) ∧ (∀ k, sc k ⊆ s.syscall_caps k) := by
  cases scope with
  | Process =>
    exact ⟨s.thread_caps, s.syscall_caps, rfl, fun t x hx => hx, fun k x hx => hx⟩
  | Permanent =>
    exact ⟨s.thread_caps, s.syscall_caps, rfl, fun t x hx => hx, fun k x hx => hx⟩
  | Thread t0 =>
    refine ⟨upd s.thread_caps t0 ((s.thread_caps t0).filter (fun x => x ≠ idx)), s.syscall_caps, rfl, ?_, fun k x hx => hx⟩
    intro t x hx
    by_cases ht : t = t0
    · subst ht
      rw [upd_same] at hx
      exact List.mem_of_mem_filter hx
    · rw [upd_ne _ _ _ _ ht] at hx
      exact hx
  | Syscall t0 q0 =>
    refine ⟨s.thread_caps, upd s.syscall_caps (t0, q0) ((s.syscall_caps (t0, q0)).filter (fun x => x ≠ idx)), rfl, fun t x hx => hx, ?_⟩
    intro k x hx
    by_cases hk : k = (t0, q0)
    · subst hk
      rw [upd_same] at hx
      exact List.mem_of_mem_filter hx
    · rw [upd_ne _ _ _ _ hk] at hx
      exact hx

theorem unlink_shape (s : CapState) (idx : Nat) :
    ∃ ch pf, unlink_graph_locked s idx = { s with children_of := ch, parent_of := pf } ∧
      (∀ p, ch p ⊆ s.children_of p) := by
  unfold unlink_graph_locked
  cases hp : s.parent_of idx with
  | none =>
    simp only []
    refine ⟨_, _, rfl, ?_⟩
    intro p x hx
    by_cases hpi : p = idx
    · subst hpi
      rw [upd_same] at hx
      simp at hx
    · rw [upd_ne _ _ _ _ hpi] at hx
      exact hx
  | some q =>
    simp only []
    refine ⟨_, _, rfl, ?_⟩
    intro p x hx
    by_cases hpi : p = idx
    · subst hpi
      rw [upd_same] at hx
      simp at hx
    · rw [upd_ne _ _ _ _ hpi] at hx
      by_cases hpq : p = q
      · subst hpq
        rw [upd_same] at hx
        exact List.mem_of_mem_filter hx
      · rw [upd_ne _ _ _ _ hpq] at hx
        exact hx

theorem free_slot_shape (s : CapState) (idx : Nat) :
    free_slot_locked s idx = { s with ro := upd s.ro idx (freed_entry s idx), used_count := s.used_count - 1, free_slots := idx :: s.free_slots } :=
  rfl

theorem revoke_free_path_shape (s : CapState) (idx : Nat) :
    ∃ qc tc sc ch pf fs uc,
      revoke_free_path s idx = { s with ro := upd s.ro idx (freed_entry s idx), quick_cache := qc, thread_caps := tc, syscall_caps := sc, children_of := ch, parent_of := pf, free_slots := fs, used_count := uc } ∧
      (∀ p, ch p ⊆ s.children_of p) ∧ (∀ t, tc t ⊆ s.thread_caps t) ∧
      (∀ k, sc k ⊆ s.syscall_caps k) := by
  unfold revoke_free_path
  simp only []
  rw [qc_remove_shape]
  obtain ⟨tc, sc, hsc, htc, hsc2⟩ := scope_remove_shape { s with quick_cache := upd s.quick_cache ((s.ro idx).owner_pid, (s.ro idx).resource_id) ((s.quick_cache ((s.ro idx).owner_pid, (s.ro idx).resource_id)).filter (fun x => x ≠ idx)) } (s.ro idx).scope idx
  rw [hsc]
  obtain ⟨ch, pf, hun, hch⟩ := unlink_shape { s with quick_cache := upd s.quick_cache ((s.ro idx).owner_pid, (s.ro idx).resource_id) ((s.quick_cache ((s.ro idx).owner_pid, (s.ro idx).resource_id)).filter (fun x => x ≠ idx)), thread_caps := tc, syscall_caps := sc } idx
  rw [hun]
  rw [free_slot_shape]
  exact ⟨_, tc, sc, ch, pf, _, _, rfl, hch, htc, hsc2⟩

-- ========== revoke_one_locked case analysis ==========

/-- The state produced by the deferred branch of `revoke_one_locked`. -/
def pending_state (s : CapState) (idx : Nat) : CapState :=
  { s with pending_revoke := upd s.pending_revoke (s.ro idx).resource_id (s.pending_revoke (s.ro idx).resource_id ++ [idx]),
           ro := upd s.ro idx { s.ro idx with state := .PendingRevoke } }

/-- No borrow state in the table has an active borrow. -/
def AllInactive (s : CapState) : Prop :=
  ∀ r bs, s.resource_borrows r = some bs → bs.has_active = false

theorem revoke_one_cases (s : CapState) (idx : Nat) (strict : Bool) :
    (revoke_one_locked s idx strict = (.error .BorrowConflict, s) ∧ strict = true ∧
       ∃ bs, s.resource_borrows (s.ro idx).resource_id = some bs ∧ bs.has_active = true) ∨
    (revoke_one_locked s idx strict = (.ok (), pending_state s idx) ∧ strict = false ∧
       ∃ bs, s.resource_borrows (s.ro idx).resource_id = some bs ∧ bs.has_active = true) ∨
    (revoke_one_locked s idx strict = (.ok (), revoke_free_path s idx) ∧
       ∀ bs, s.resource_borrows (s.ro idx).resource_id = some bs → bs.has_active = false) := by
  unfold revoke_one_locked
  simp only []
  cases hb : s.resource_borrows (s.ro idx).resource_id with
  | none =>
    refine Or.inr (Or.inr ⟨by simp only [], ?_⟩)
    intro bs h
    cases h
  | some bs =>
    simp only []
    cases hba : bs.has_active with
    | false =>
      rw [if_neg Bool.false_ne_true]
      refine Or.inr (Or.inr ⟨rfl, ?_⟩)
      intro bs' h
      cases h
      exact hba
    | true =>
      rw [if_pos rfl]
      cases strict with
      | true =>
        rw [if_pos rfl]
        exact Or.inl ⟨rfl, rfl, bs, rfl, hba⟩
      | false =>
        rw [if_neg Bool.false_ne_true]
        exact Or.inr (Or.inl ⟨rfl, rfl, bs, rfl, hba⟩)

theorem revoke_one_inactive (s : CapState) (idx : Nat) (strict : Bool)
    (h : AllInactive s) :
    revoke_one_locked s idx strict = (.ok (), revoke_free_path s idx) := by
  rcases revoke_one_cases s idx strict with ⟨_, _, bs, hb, hba⟩ | ⟨_, _, bs, hb, hba⟩ | ⟨he, _⟩
  · rw [h _ bs hb] at hba; cases hba
  · rw [h _ bs hb] at hba; cases hba
  · exact he

theorem revoke_one_borrows (s : CapState) (idx : Nat) (strict : Bool) :
    ((revoke_one_locked s idx strict).2).resource_borrows = s.resource_borrows := by
  rcases revoke_one_cases s idx strict with ⟨he, _, _⟩ | ⟨he, _, _⟩ | ⟨he, _⟩
  · rw [he]
  · rw [he]
    rfl
  · rw [he]
    obtain ⟨qc, tc, sc, ch, pf, fs, uc, hsh, _⟩ := revoke_free_path_shape s idx
    rw [hsh]

theorem revoke_one_process (s : CapState) (idx : Nat) (strict : Bool) :
    ((revoke_one_locked s idx strict).2).process_caps = s.process_caps := by
  rcases revoke_one_cases s idx strict with ⟨he, _, _⟩ | ⟨he, _, _⟩ | ⟨he, _⟩
  · rw [he]
  · rw [he]
    rfl
  · rw [he]
    obtain ⟨qc, tc, sc, ch, pf, fs, uc, hsh, _⟩ := revoke_free_path_shape s idx
    rw [hsh]

theorem revoke_one_frame (s : CapState) (idx : Nat) (strict : Bool) (j : Nat)
    (hj : j ≠ idx) : ((revoke_one_locked s idx strict).2).ro j = s.ro j := by
  rcases revoke_one_cases s idx strict with ⟨he, _, _⟩ | ⟨he, _, _⟩ | ⟨he, _⟩
  · rw [he]
  · rw [he]
    show (pending_state s idx).ro j = s.ro j
    rw [pending_state]
    exact upd_ne _ _ _ _ hj
  · rw [he]
    obtain ⟨qc, tc, sc, ch, pf, fs, uc, hsh, _⟩ := revoke_free_path_shape s idx
    rw [hsh]
    exact upd_ne _ _ _ _ hj

theorem revoke_one_entry (s : CapState) (idx : Nat) (strict : Bool) (j : Nat) :
    ((revoke_one_locked s idx strict).2).ro j = s.ro j ∨
    ((revoke_one_locked s idx strict).2).ro j = freed_entry s j ∨
    ((revoke_one_locked s idx strict).2).ro j = { s.ro j with state := .PendingRevoke } := by
  by_cases hj : j = idx
  · subst hj
    rcases revoke_one_cases s j strict with ⟨he, _, _⟩ | ⟨he, _, _⟩ | ⟨he, _⟩
    · rw [he]
      exact Or.inl rfl
    · rw [he]
      refine Or.inr (Or.inr ?_)
      show (pending_state s j).ro j = _
      rw [pending_state]
      exact upd_same _ _ _
    · rw [he]
      obtain ⟨qc, tc, sc, ch, pf, fs, uc, hsh, _⟩ := revoke_free_path_shape s j
      rw [hsh]
      refine Or.inr (Or.inl ?_)
      exact upd_same _ _ _
  · exact Or.inl (revoke_one_frame s idx strict j hj)

theorem revoke_one_children_sub (s : CapState) (idx : Nat) (strict : Bool) (p : Nat) :
    ((revoke_one_locked s idx strict).2).children_of p ⊆ s.children_of p := by
  rcases revoke_one_cases s idx strict with ⟨he, _, _⟩ | ⟨he, _, _⟩ | ⟨he, _⟩
  · rw [he]
    exact fun x hx => hx
  · rw [he]
    exact fun x hx => hx
  · rw [he]
    obtain ⟨qc, tc, sc, ch, pf, fs, uc, hsh, hch, _⟩ := revoke_free_path_shape s idx
    rw [hsh]
    exact hch p

theorem revoke_one_thread_sub (s : CapState) (idx : Nat) (strict : Bool) (t : Nat) :
    ((revoke_one_locked s idx strict).2).thread_caps t ⊆ s.thread_caps t := by
  rcases revoke_one_cases s idx strict with ⟨he, _, _⟩ | ⟨he, _, _⟩ | ⟨he, _⟩
  · rw [he]
    exact fun x hx => hx
  · rw [he]
    exact fun x hx => hx
  · rw [he]
    obtain ⟨qc, tc, sc, ch, pf, fs, uc, hsh, _, htc, _⟩ := revoke_free_path_shape s idx
    rw [hsh]
    exact htc t

theorem revoke_one_syscall_sub (s : CapState) (idx : Nat) (strict : Bool) (k : Nat × Nat) :
    ((revoke_one_locked s idx strict).2).syscall_caps k ⊆ s.syscall_caps k := by
  rcases revoke_one_cases s idx strict with ⟨he, _, _⟩ | ⟨he, _, _⟩ | ⟨he, _⟩
  · rw [he]
    exact fun x hx => hx
  · rw [he]
    exact fun x hx => hx
  · rw [he]
    obtain ⟨qc, tc, sc, ch, pf, fs, uc, hsh, _, _, hsc⟩ := revoke_free_path_shape s idx
    rw [hsh]
    exact hsc k

theorem revoke_one_pending_strict (s : CapState) (idx : Nat) :
    ((revoke_one_locked s idx true).2).pending_revoke = s.pending_revoke := by
  rcases revoke_one_cases s idx true with ⟨he, _, _⟩ | ⟨_, hs, _⟩ | ⟨he, _⟩
  · rw [he]
  · cases hs
  · rw [he]
    obtain ⟨qc, tc, sc, ch, pf, fs, uc, hsh, _⟩ := revoke_free_path_shape s idx
    rw [hsh]

-- ========== revoke_dfs_locked: generic preservation lemmas ==========

theorem revoke_dfs_list_main (f : CapState → Nat → Except CapError Unit × CapState)
    (P : CapState → Prop) (R : CapState → CapState → Prop)
    (htrans : ∀ a b c, R a b → R b c → R a c) (hrefl : ∀ s, R s s)
    (hf : ∀ s c, P s → P ((f s c).2) ∧ R s ((f s c).2)) :
    ∀ l s, P s → P ((revoke_dfs_list f s l).2) ∧ R s ((revoke_dfs_list f s l).2) := by
  intro l
  induction l with
  | nil => intro s h; exact ⟨h, hrefl s⟩
  | cons c cs ih =>
    intro s h
    have hstep := hf s c h
    rw [revoke_dfs_list]
    cases hf1 : f s c with
    | mk r s2 =>
      rw [hf1] at hstep
      cases r with
      | ok u =>
        have := ih s2 hstep.1
        exact ⟨this.1, htrans _ _ _ hstep.2 this.2⟩
      | error e => exact hstep

theorem revoke_dfs_list_ok (f : CapState → Nat → Except CapError Unit × CapState)
    (P : CapState → Prop)
    (hf : ∀ s c, P s → P ((f s c).2) ∧ (f s c).1 = .ok ()) :
    ∀ l s, P s → (revoke_dfs_list f s l).1 = .ok () ∧ P ((revoke_dfs_list f s l).2) := by
  intro l
  induction l with
  | nil => intro s h; exact ⟨rfl, h⟩
  | cons c cs ih =>
    intro s h
    have hstep := hf s c h
    rw [revoke_dfs_list]
    cases hf1 : f s c with
    | mk r s2 =>
      rw [hf1] at hstep
      cases r with
      | ok u => exact ih s2 hstep.1
      | error e => cases hstep.2

theorem revoke_dfs_rel (strict : Bool) (P : CapState → Prop)
    (R : CapState → CapState → Prop)
    (htrans : ∀ a b c, R a b → R b c → R a c) (hrefl : ∀ s, R s s)
    (hone : ∀ s idx, P s →
      P ((revoke_one_locked s idx strict).2) ∧ R s ((revoke_one_locked s idx strict).2)) :
    ∀ fuel s idx, P s →
      P ((revoke_dfs_locked fuel s idx strict).2) ∧
      R s ((revoke_dfs_locked fuel s idx strict).2) := by
  intro fuel
  induction fuel with
  | zero => intro s idx h; exact ⟨h, hrefl s⟩
  | succ fuel ih =>
    intro s idx h
    rw [revoke_dfs_locked]
    split
    · exact ⟨h, hrefl s⟩
    · split
      · exact ⟨h, hrefl s⟩
      · have hlist := revoke_dfs_list_main _ P R htrans hrefl
          (fun s' c hp => ih s' c hp) (s.children_of idx) s h
        cases hl : revoke_dfs_list (fun s' c => revoke_dfs_locked fuel s' c strict) s
            (s.children_of idx) with
        | mk r s2 =>
          rw [hl] at hlist
          cases r with
          | ok u =>
            have hone2 := hone s2 idx hlist.1
            exact ⟨hone2.1, htrans _ _ _ hlist.2 hone2.2⟩
          | error e => exact hlist

theorem revoke_dfs_ok (strict : Bool) (P : CapState → Prop)
    (hone : ∀ s idx, P s →
      P ((revoke_one_locked s idx strict).2) ∧ (revoke_one_locked s idx strict).1 = .ok ()) :
    ∀ fuel s idx, P s →
      (revoke_dfs_locked fuel s idx strict).1 = .ok () ∧
      P ((revoke_dfs_locked fuel s idx strict).2) := by
  intro fuel
  induction fuel with
  | zero => intro s idx h; exact ⟨rfl, h⟩
  | succ fuel ih =>
    intro s idx h
    rw [revoke_dfs_locked]
    split
    · exact ⟨rfl, h⟩
    · split
      · exact ⟨rfl, h⟩
      · have hlist := revoke_dfs_list_ok _ P (fun s' c hp => ⟨(ih s' c hp).2, (ih s' c hp).1⟩)
          (s.children_of idx) s h
        cases hl : revoke_dfs_list (fun s' c => revoke_dfs_locked fuel s' c strict) s
            (s.children_of idx) with
        | mk r s2 =>
          rw [hl] at hlist
          cases r with
          | ok u =>
            have hone2 := hone s2 idx hlist.2
            exact ⟨hone2.2, hone2.1⟩
          | error e => cases hlist.1

-- ========== revoke_dfs_locked: concrete facts ==========

theorem revoke_dfs_borrows (strict : Bool) (fuel : Nat) (s : CapState) (idx : Nat) :
    ((revoke_dfs_locked fuel s idx strict).2).resource_borrows = s.resource_borrows :=
  (revoke_dfs_rel strict (fun _ => True)
    (fun a b => b.resource_borrows = a.resource_borrows)
    (fun a b c h1 h2 => h2.trans h1) (fun _ => rfl)
    (fun s' i _ => ⟨trivial, revoke_one_borrows s' i strict⟩) fuel s idx trivial).2

theorem revoke_dfs_process (strict : Bool) (fuel : Nat) (s : CapState) (idx : Nat) :
    ((revoke_dfs_locked fuel s idx strict).2).process_caps = s.process_caps :=
  (revoke_dfs_rel strict (fun _ => True)
    (fun a b => b.process_caps = a.process_caps)
    (fun a b c h1 h2 => h2.trans h1) (fun _ => rfl)
    (fun s' i _ => ⟨trivial, revoke_one_process s' i strict⟩) fuel s idx trivial).2

/-- The identity-carrying fields of a slot entry (everything except
`generation` and `state`), which no revocation path ever changes. -/
def entry_core (e : CapabilityEntry) : ResourceId × Nat × Nat × Nat × Nat × ScopeKind :=
  (e.resource_id, e.owner_pid, e.capabilities, e.created_at, e.creation_order, e.scope)

theorem revoke_one_core (s : CapState) (idx : Nat) (strict : Bool) (j : Nat) :
    entry_core (((revoke_one_locked s idx strict).2).ro j) = entry_core (s.ro j) := by
  rcases revoke_one_entry s idx strict j with he | he | he <;> rw [he] <;> rfl

theorem revoke_dfs_core (strict : Bool) (fuel : Nat) (s : CapState) (idx : Nat) (j : Nat) :
    entry_core (((revoke_dfs_locked fuel s idx strict).2).ro j) = entry_core (s.ro j) :=
  (revoke_dfs_rel strict (fun _ => True)
    (fun a b => ∀ j, entry_core (b.ro j) = entry_core (a.ro j))
    (fun a b c h1 h2 j => (h2 j).trans (h1 j)) (fun _ _ => rfl)
    (fun s' i _ => ⟨trivial, fun j => revoke_one_core s' i strict j⟩) fuel s idx trivial).2 j

theorem revoke_dfs_children_sub (strict : Bool) (fuel : Nat) (s : CapState) (idx : Nat)
    (p : Nat) :
    ((revoke_dfs_locked fuel s idx strict).2).children_of p ⊆ s.children_of p :=
  (revoke_dfs_rel strict (fun _ => True)
    (fun a b => ∀ p, b.children_of p ⊆ a.children_of p)
    (fun a b c h1 h2 p => fun x hx => h1 p (h2 p hx)) (fun _ _ => fun x hx => hx)
    (fun s' i _ => ⟨trivial, fun p => revoke_one_children_sub s' i strict p⟩)
    fuel s idx trivial).2 p

theorem revoke_dfs_thread_sub (strict : Bool) (fuel : Nat) (s : CapState) (idx : Nat)
    (t : Nat) :
    ((revoke_dfs_locked fuel s idx strict).2).thread_caps t ⊆ s.thread_caps t :=
  (revoke_dfs_rel strict (fun _ => True)
    (fun a b => ∀ t, b.thread_caps t ⊆ a.thread_caps t)
    (fun a b c h1 h2 t => fun x hx => h1 t (h2 t hx)) (fun _ _ => fun x hx => hx)
    (fun s' i _ => ⟨trivial, fun t => revoke_one_thread_sub s' i strict t⟩)
    fuel s idx trivial).2 t

theorem revoke_dfs_syscall_sub (strict : Bool) (fuel : Nat) (s : CapState) (idx : Nat)
    (k : Nat × Nat) :
    ((revoke_dfs_locked fuel s idx strict).2).syscall_caps k ⊆ s.syscall_caps k :=
  (revoke_dfs_rel strict (fun _ => True)
    (fun a b => ∀ k, b.syscall_caps k ⊆ a.syscall_caps k)
    (fun a b c h1 h2 k => fun x hx => h1 k (h2 k hx)) (fun _ _ => fun x hx => hx)
    (fun s' i _ => ⟨trivial, fun k => revoke_one_syscall_sub s' i strict k⟩)
    fuel s idx trivial).2 k

theorem revoke_one_ok_nonstrict (s : CapState) (idx : Nat) :
    (revoke_one_locked s idx false).1 = .ok () := by
  rcases revoke_one_cases s idx false with ⟨_, hs, _⟩ | ⟨he, _, _⟩ | ⟨he, _⟩
  · cases hs
  · rw [he]
  · rw [he]

theorem revoke_dfs_ok_nonstrict (fuel : Nat) (s : CapState) (idx : Nat) :
    (revoke_dfs_locked fuel s idx false).1 = .ok () :=
  (revoke_dfs_ok false (fun _ => True)
    (fun s' i _ => ⟨trivial, revoke_one_ok_nonstrict s' i⟩) fuel s idx trivial).1

/-- Under globally inactive borrows, a revocation neither fails nor leaves
anything other than freed slots behind, and `AllInactive` persists. -/
theorem revoke_dfs_inactive (strict : Bool) (fuel : Nat) (s : CapState) (idx : Nat)
    (h : AllInactive s) :
    (revoke_dfs_locked fuel s idx strict).1 = .ok () ∧
    AllInactive ((revoke_dfs_locked fuel s idx strict).2) ∧
    (∀ j, (((revoke_dfs_locked fuel s idx strict).2).ro j).state = (s.ro j).state ∨
          (((revoke_dfs_locked fuel s idx strict).2).ro j).state = .Free) := by
  have hinact : ∀ s' : CapState, AllInactive s' → ∀ i : Nat,
      AllInactive ((revoke_one_locked s' i strict).2) := by
    intro s' h' i
    intro r bs hb
    rw [revoke_one_borrows] at hb
    exact h' r bs hb
  have hok := revoke_dfs_ok strict AllInactive
    (fun s' i h' => ⟨hinact s' h' i, by rw [revoke_one_inactive s' i strict h']⟩)
    fuel s idx h
  have hrel := revoke_dfs_rel strict AllInactive
    (fun a b => ∀ j, (b.ro j).state = (a.ro j).state ∨ (b.ro j).state = .Free)
    (fun a b c h1 h2 j => by rcases h2 j with h2j | h2j
                             · rw [h2j]; exact h1 j
                             · exact Or.inr h2j)
    (fun _ _ => Or.inl rfl)
    (fun s' i h' => by
      refine ⟨hinact s' h' i, ?_⟩
      intro j
      rw [revoke_one_inactive s' i strict h']
      by_cases hj : j = i
      · subst hj
        obtain ⟨qc, tc, sc, ch, pf, fs, uc, hsh, _⟩ := revoke_free_path_shape s' j
        show ((revoke_free_path s' j).ro j).state = _ ∨ _
        rw [hsh]
        exact Or.inr (by dsimp only; rw [upd_same]; rfl)
      · obtain ⟨qc, tc, sc, ch, pf, fs, uc, hsh, _⟩ := revoke_free_path_shape s' i
        show ((revoke_free_path s' i).ro j).state = _ ∨ _
        rw [hsh]
        exact Or.inl (by dsimp only; rw [upd_ne _ _ _ _ hj]))
    fuel s idx h
  exact ⟨hok.1, hok.2, hrel.2⟩

/-- Under globally inactive borrows, the root of a strict DFS revocation
with positive fuel ends up Free (whether or not it was already). -/
theorem revoke_dfs_root_free (strict : Bool) (fuel : Nat) (s : CapState) (idx : Nat)
    (h : AllInactive s) (hfuel : 0 < fuel) (hidx : idx < MAX_CAPABILITIES) :
    (((revoke_dfs_locked fuel s idx strict).2).ro idx).state = .Free := by
  cases fuel with
  | zero => omega
  | succ fuel =>
    rw [revoke_dfs_locked]
    split
    · omega
    · split
      · rename_i hfree
        exact hfree
      · have hlist := revoke_dfs_list_ok _ AllInactive
          (fun s' c hp => ⟨(revoke_dfs_inactive strict fuel s' c hp).2.1,
                           (revoke_dfs_inactive strict fuel s' c hp).1⟩)
          (s.children_of idx) s h
        cases hl : revoke_dfs_list (fun s' c => revoke_dfs_locked fuel s' c strict) s
            (s.children_of idx) with
        | mk r s2 =>
          rw [hl] at hlist
          cases r with
          | ok u =>
            simp only []
            rw [revoke_one_inactive s2 idx strict hlist.2]
            obtain ⟨qc, tc, sc, ch, pf, fs, uc, hsh, _⟩ := revoke_free_path_shape s2 idx
            show ((revoke_free_path s2 idx).ro idx).state = _
            rw [hsh]
            dsimp only
            rw [upd_same]
            rfl
          | error e => cases hlist.1

-- ========== Frame: DFS touches only the explored subtree ==========

theorem revoke_dfs_list_frame (f : CapState → Nat → Except CapError Unit × CapState)
    (ch0 : Nat → List Nat) (j : Nat) (cond : Nat → Prop)
    (hf : ∀ s c, (∀ p, s.children_of p ⊆ ch0 p) → cond c →
       ((f s c).2.ro j = s.ro j ∧ ∀ p, (f s c).2.children_of p ⊆ ch0 p)) :
    ∀ l s, (∀ p, s.children_of p ⊆ ch0 p) → (∀ c ∈ l, cond c) →
      ((revoke_dfs_list f s l).2.ro j = s.ro j ∧
       ∀ p, (revoke_dfs_list f s l).2.children_of p ⊆ ch0 p) := by
  intro l
  induction l with
  | nil => intro s hch _; exact ⟨rfl, hch⟩
  | cons c cs ih =>
    intro s hch hcond
    have hstep := hf s c hch (hcond c (List.mem_cons_self c cs))
    rw [revoke_dfs_list]
    cases hf1 : f s c with
    | mk r s2 =>
      rw [hf1] at hstep
      cases r with
      | ok u =>
        have := ih s2 hstep.2 (fun c' hc' => hcond c' (List.mem_cons_of_mem c hc'))
        exact ⟨this.1.trans hstep.1, this.2⟩
      | error e => exact hstep

theorem revoke_dfs_frame (strict : Bool) (ch0 : Nat → List Nat) (j : Nat) :
    ∀ fuel s idx, (∀ p, s.children_of p ⊆ ch0 p) →
      subtree_mem fuel ch0 idx j = false →
      ((revoke_dfs_locked fuel s idx strict).2).ro j = s.ro j ∧
      (∀ p, ((revoke_dfs_locked fuel s idx strict).2).children_of p ⊆ ch0 p) := by
  intro fuel
  induction fuel with
  | zero => intro s idx hch _; exact ⟨rfl, hch⟩
  | succ fuel ih =>
    intro s idx hch hsub
    rw [subtree_mem] at hsub
    rw [Bool.or_eq_false_iff] at hsub
    obtain ⟨hij, hany⟩ := hsub
    have hij' : j ≠ idx := fun he => by
      subst he
      rw [beq_self_eq_true] at hij
      cases hij
    rw [List.any_eq_false] at hany
    rw [revoke_dfs_locked]
    split
    · exact ⟨rfl, hch⟩
    · split
      · exact ⟨rfl, hch⟩
      · have hlist := revoke_dfs_list_frame _ ch0 j
          (fun c => subtree_mem fuel ch0 c j = false)
          (fun s' c hch' hc => ih s' c hch' hc)
          (s.children_of idx) s hch
          (fun c hc => Bool.eq_false_iff.mpr (hany c (hch idx hc)))
        cases hl : revoke_dfs_list (fun s' c => revoke_dfs_locked fuel s' c strict) s
            (s.children_of idx) with
        | mk r s2 =>
          rw [hl] at hlist
          cases r with
          | ok u =>
            simp only []
            constructor
            · rw [revoke_one_frame s2 idx strict j hij']
              exact hlist.1
            · intro p x hx
              exact hlist.2 p (revoke_one_children_sub s2 idx strict p hx)
          | error e => exact hlist

-- ========== Claim C10 ==========

/-- C10 (amended): when the grantee already holds a Live capability for
`rid` (found through `quick_cache`), a successful
`grant_readonly(grantor, grantee, rid)` returns the grantee's existing
handle and leaves the table — in particular `children_of`, `parent_of`
and every slot — unchanged, so no *new* delegation edge is registered;
and, *provided the grantee's slot does not already lie inside the
grantor's delegation subtree*, a subsequent strict DFS revocation rooted
at the grantor's slot leaves the grantee's slot entry untouched.  The
proviso is essential: when the grantee's existing capability came from an
earlier grant by the same grantor the old edge persists and revocation
does reach it (`c10_counterexample`). -/
theorem c10_amended (s : CapState) (a b : Nat) (rid : ResourceId)
    (pIdx pCaps gIdx : Nat)
    (hGr : find_grantor s.ro a rid (s.quick_cache (a, rid)) = some (pIdx, pCaps))
    (hGRANT : ¬ pCaps &&& caps.GRANT = 0) (hREAD : ¬ pCaps &&& caps.READ = 0)
    (hG : find_live_idx s.ro b rid (s.quick_cache (b, rid)) = some gIdx)
    (hsub : subtree_mem MAX_CAPABILITIES s.children_of pIdx gIdx = false) :
    (grant_readonly s a b rid).1 = .ok (mkHandle gIdx (s.ro gIdx)) ∧
    (grant_readonly s a b rid).2.children_of = s.children_of ∧
    (grant_readonly s a b rid).2.parent_of = s.parent_of ∧
    (grant_readonly s a b rid).2.ro = s.ro ∧
    ((revoke_dfs_locked MAX_CAPABILITIES (grant_readonly s a b rid).2 pIdx true).2).ro gIdx
      = s.ro gIdx := by
  unfold grant_readonly
  rw [hGr]
  simp only []
  rw [if_neg hGRANT, if_neg hREAD]
  rw [bind_internal_hit { s with creation_seq := (s.creation_seq + 1) % U64MOD }
    b rid caps.READ .Process s.creation_seq (some pIdx) gIdx hG]
  refine ⟨rfl, rfl, rfl, rfl, ?_⟩
  exact (revoke_dfs_frame true s.children_of gIdx MAX_CAPABILITIES
    { s with creation_seq := (s.creation_seq + 1) % U64MOD } pIdx
    (fun p x hx => hx) hsub).1

def c10rid : ResourceId := ⟨2, .PhysicalPage⟩

def c10grantor : CapabilityEntry :=
  { resource_id := c10rid, owner_pid := 1,
    capabilities := caps.READ ||| caps.WRITE ||| caps.GRANT,
    generation := 0, state := .Live, created_at := 0, creation_order := 0,
    scope := .Process }

/-- The grantee's pre-existing capability for the same resource. -/
def c10grantee : CapabilityEntry :=
  { resource_id := c10rid, owner_pid := 2, capabilities := caps.READ,
    generation := 3, state := .Live, created_at := 0, creation_order := 1,
    scope := .Process }

def c10state : CapState :=
  { initState with
      ro := upd (upd initState.ro 0 c10grantor) 1 c10grantee,
      free_slots := [2, 3],
      quick_cache := upd (upd initState.quick_cache (1, c10rid) [0]) (2, c10rid) [1],
      resource_borrows := upd initState.resource_borrows c10rid (some .new),
      used_count := 2 }

/-- Witness: granting to pid 2, which already holds slot 1 for `c10rid`
and is not a descendant of the grantor, returns slot 1's existing handle,
registers no edge, and revoking the grantor's slot 0 leaves slot 1's
entry intact. -/
theorem c10_amended_witness :
    (grant_readonly c10state 1 2 c10rid).1 = .ok (mkHandle 1 (c10state.ro 1)) ∧
    (grant_readonly c10state 1 2 c10rid).2.children_of = c10state.children_of ∧
    (grant_readonly c10state 1 2 c10rid).2.parent_of = c10state.parent_of ∧
    (grant_readonly c10state 1 2 c10rid).2.ro = c10state.ro ∧
    ((revoke_dfs_locked MAX_CAPABILITIES (grant_readonly c10state 1 2 c10rid).2 0 true).2).ro 1
      = c10state.ro 1 :=
  c10_amended c10state 1 2 c10rid 0 (caps.READ ||| caps.WRITE ||| caps.GRANT) 1
    (by decide) (by decide) (by decide) (by decide) (by decide)

/-- `c10state` in the configuration an *earlier* `grant_readonly` from
pid 1 to pid 2 leaves behind: the grantee's slot 1 is already a child of
the grantor's slot 0. -/
def c10cstate : CapState :=
  { c10state with
      children_of := upd initState.children_of 0 [1],
      parent_of := upd initState.parent_of 1 (some 0) }

/-- C10 (counterexample): if the grantee's pre-existing capability is
already a child of the grantor's slot — exactly the state a first grant
by the same grantor produces — a second successful `grant_readonly`
returns the existing handle and registers no new edge, but the old
delegation edge persists, and a strict DFS revocation rooted at the
grantor *does* free the grantee's slot, refuting the claim's conclusion
that the grantee's capability is not revoked with the grantor's
subtree. -/
theorem c10_counterexample :
    (grant_readonly c10cstate 1 2 c10rid).1 = .ok (mkHandle 1 (c10cstate.ro 1)) ∧
    (grant_readonly c10cstate 1 2 c10rid).2.children_of 0 = [1] ∧
    (grant_readonly c10cstate 1 2 c10rid).2.parent_of 1 = some 0 ∧
    (((revoke_dfs_locked MAX_CAPABILITIES (grant_readonly c10cstate 1 2 c10rid).2 0
        true).2).ro 1).state = .Free := by decide

-- ========== Claim C1 ==========

/-- C1 (confirmed): freeing a slot (the single `Live → Free` path
`free_slot_locked`, used by revoke, scope cleanup and deferred-revoke
completion alike) strictly increments its generation modulo `2^32`; the
new generation always differs from the old one; and after the slot is
re-bound by `bind_internal` (which reuses the stored generation), a
handle carrying the old generation fails `fast_validate` with
`InvalidHandle`, whatever scope and creation order it carries. -/
theorem c1_confirmed (s : CapState) (idx : Nat) (pid : Nat) (rid : ResourceId)
    (cb : Nat) (sc : ScopeKind) (co : Nat)
    (hidx : idx < MAX_CAPABILITIES)
    (hgen : (s.ro idx).generation < U32MOD)
    (hfresh : find_live_idx (free_slot_locked s idx).ro pid rid
        ((free_slot_locked s idx).quick_cache (pid, rid)) = none) :
    ((free_slot_locked s idx).ro idx).generation = ((s.ro idx).generation + 1) % U32MOD ∧
    ((s.ro idx).generation + 1) % U32MOD ≠ (s.ro idx).generation ∧
    ∀ h2 s2, bind_internal (free_slot_locked s idx) pid rid cb sc co none = (.ok h2, s2) →
      h2.index = idx ∧
      ∀ sc' co', fast_validate s2 ⟨idx, (s.ro idx).generation, sc', co'⟩ =
        .error .InvalidHandle := by
  have hfree1 : ((free_slot_locked s idx).ro idx).generation =
      ((s.ro idx).generation + 1) % U32MOD := by
    rw [free_slot_shape]
    show ((upd s.ro idx (freed_entry s idx)) idx).generation = _
    rw [upd_same]
    rfl
  have hne : ((s.ro idx).generation + 1) % U32MOD ≠ (s.ro idx).generation := by
    simp only [U32MOD] at hgen ⊢
    omega
  refine ⟨hfree1, hne, ?_⟩
  intro h2 s2 hok
  have hfs : (free_slot_locked s idx).free_slots = idx :: s.free_slots := by
    rw [free_slot_shape]
  rw [bind_internal_fresh_none (free_slot_locked s idx) pid rid cb sc co idx
    s.free_slots hfresh hfs] at hok
  rw [Prod.mk.injEq, Except.ok.injEq] at hok
  obtain ⟨hh, hs2⟩ := hok
  subst hh
  subst hs2
  refine ⟨rfl, ?_⟩
  intro sc' co'
  have hro2 : (bind_write_entry (free_slot_locked s idx) pid rid cb sc co idx
      s.free_slots).ro idx = written_entry (free_slot_locked s idx) pid rid cb sc co idx := by
    rw [bind_write_entry_ro, upd_same]
  have hgen2 : ((bind_write_entry (free_slot_locked s idx) pid rid cb sc co idx
      s.free_slots).ro idx).generation = ((s.ro idx).generation + 1) % U32MOD := by
    rw [hro2]
    show ((free_slot_locked s idx).ro idx).generation = _
    exact hfree1
  have hst : ((bind_write_entry (free_slot_locked s idx) pid rid cb sc co idx
      s.free_slots).ro idx).state = .Live := by
    rw [hro2]
    rfl
  unfold fast_validate
  simp only []
  rw [if_neg (Nat.not_le.mpr hidx)]
  rw [if_neg (by intro hcon; rw [hst] at hcon; exact hcon rfl)]
  rw [if_pos (by rw [hgen2]; exact hne)]

/-- Witness: slot 0 of `c6state` (generation 0) freed and re-bound for
pid 3; the old-generation handle is rejected. -/
theorem c1_confirmed_witness :
    ((free_slot_locked c6state 0).ro 0).generation = ((c6state.ro 0).generation + 1) % U32MOD ∧
    (⟨0, 1, ScopeKind.Process, 7⟩ : CapabilityHandle).index = 0 ∧
    fast_validate
      (bind_internal (free_slot_locked c6state 0) 3 c6rid caps.READ .Process 7 none).2
      ⟨0, (c6state.ro 0).generation, .Process, 0⟩ = .error .InvalidHandle := by
  have hc := c1_confirmed c6state 0 3 c6rid caps.READ .Process 7
    (by decide) (by decide) (by decide)
  have h1 : (bind_internal (free_slot_locked c6state 0) 3 c6rid caps.READ .Process 7 none).1 =
      .ok ⟨0, 1, .Process, 7⟩ := by decide
  have hok : bind_internal (free_slot_locked c6state 0) 3 c6rid caps.READ .Process 7 none =
      (.ok ⟨0, 1, .Process, 7⟩,
       (bind_internal (free_slot_locked c6state 0) 3 c6rid caps.READ .Process 7 none).2) := by
    rw [← h1]
  exact ⟨hc.1, (hc.2.2 _ _ hok).1, (hc.2.2 _ _ hok).2 .Process 0⟩

-- ========== Scope-hook loop lemmas (claims C4, C8) ==========

theorem entry_core_resource {e1 e2 : CapabilityEntry} (h : entry_core e1 = entry_core e2) :
    e1.resource_id = e2.resource_id := congrArg (fun t => t.1) h

theorem entry_core_owner {e1 e2 : CapabilityEntry} (h : entry_core e1 = entry_core e2) :
    e1.owner_pid = e2.owner_pid := congrArg (fun t => t.2.1) h

theorem entry_core_co {e1 e2 : CapabilityEntry} (h : entry_core e1 = entry_core e2) :
    e1.creation_order = e2.creation_order := congrArg (fun t => t.2.2.2.2.1) h

theorem entry_core_scope {e1 e2 : CapabilityEntry} (h : entry_core e1 = entry_core e2) :
    e1.scope = e2.scope := congrArg (fun t => t.2.2.2.2.2) h

theorem revoke_loop_inactive (l : List Nat) :
    ∀ s count, AllInactive s →
      AllInactive (revoke_loop s l count).2 ∧
      (∀ j, ((revoke_loop s l count).2.ro j).state = (s.ro j).state ∨
            ((revoke_loop s l count).2.ro j).state = .Free) ∧
      (∀ j, entry_core ((revoke_loop s l count).2.ro j) = entry_core (s.ro j)) ∧
      (∀ i ∈ l, i < MAX_CAPABILITIES → ((revoke_loop s l count).2.ro i).state = .Free) := by
  induction l with
  | nil =>
    intro s count h
    exact ⟨h, fun j => Or.inl rfl, fun j => rfl, fun i hi => absurd hi (List.not_mem_nil i)⟩
  | cons i rest ih =>
    intro s count h
    rw [revoke_loop]
    split
    · have hdfs := revoke_dfs_inactive true MAX_CAPABILITIES s i h
      have hroot := fun (hi : i < MAX_CAPABILITIES) =>
        revoke_dfs_root_free true MAX_CAPABILITIES s i h (by rw [MAX_CAPABILITIES]; omega) hi
      cases hl : revoke_dfs_locked MAX_CAPABILITIES s i true with
      | mk r s2 =>
        rw [hl] at hdfs hroot
        cases r with
        | error e => cases hdfs.1
        | ok u =>
          simp only []
          have hdcore : ∀ j, entry_core (s2.ro j) = entry_core (s.ro j) := by
            intro j
            have hc := revoke_dfs_core true MAX_CAPABILITIES s i j
            rw [hl] at hc
            exact hc
          obtain ⟨hfin, hst, hcore, hrest⟩ := ih s2 (count + 1) hdfs.2.1
          refine ⟨hfin, ?_, ?_, ?_⟩
          · intro j
            rcases hst j with hj | hj
            · rw [hj]
              exact hdfs.2.2 j
            · exact Or.inr hj
          · intro j
            exact (hcore j).trans (hdcore j)
          · intro i' hi' hlt
            rcases List.mem_cons.mp hi' with heq | hmem
            · subst heq
              rcases hst i' with hj | hj
              · rw [hj]
                exact hroot hlt
              · exact hj
            · exact hrest i' hmem hlt
    · rename_i hfree
      have hfree' : (s.ro i).state = .Free := by
        by_cases hc : (s.ro i).state = .Free
        · exact hc
        · exact absurd hc (by simpa using hfree)
      obtain ⟨hfin, hst, hcore, hrest⟩ := ih s count h
      refine ⟨hfin, hst, hcore, ?_⟩
      intro i' hi' hlt
      rcases List.mem_cons.mp hi' with heq | hmem
      · subst heq
        rcases hst i' with hj | hj
        · rw [hj]
          exact hfree'
        · exact hj
      · exact hrest i' hmem hlt

-- ========== Claim C4 ==========

/-- Every Live Process-scoped slot owned by `pid` is recorded in
`process_caps[pid]` (invariants I1/I4 of the spec, assumed of the
starting state). -/
def pid_process_indexed (s : CapState) (pid : Nat) : Prop :=
  ∀ i, i < MAX_CAPABILITIES → (s.ro i).state = .Live → (s.ro i).owner_pid = pid →
    (s.ro i).scope = .Process → i ∈ s.process_caps pid

/-- C4 (amended): after `on_process_exit(pid)` — assuming no resource has
active borrows (so no strict revocation fails) and the process index is
consistent — no slot is Live with `owner_pid = pid` and scope `Process`.
Thread- and Syscall-scoped slots of the process are NOT cleaned (see the
counterexample), and a slot whose strict revocation fails with
`BorrowConflict` would also survive; the spec's claim holds only for the
Process scope under the no-active-borrow proviso. -/
theorem c4_amended (s : CapState) (pid : Nat)
    (hAll : AllInactive s) (hIdx : pid_process_indexed s pid) :
    ∀ i, i < MAX_CAPABILITIES →
      ¬ (((on_process_exit s pid).2.ro i).state = .Live ∧
         ((on_process_exit s pid).2.ro i).owner_pid = pid ∧
         ((on_process_exit s pid).2.ro i).scope = .Process) := by
  intro i hi hcon
  obtain ⟨hlive, howner, hscope⟩ := hcon
  unfold on_process_exit revoke_indices_deterministic at hlive howner hscope
  have hAll1 : AllInactive { s with process_caps := upd s.process_caps pid [] } := hAll
  obtain ⟨hfin, hst, hcore, hlist⟩ := revoke_loop_inactive
    (sort_desc_by_creation { s with process_caps := upd s.process_caps pid [] }
      (s.process_caps pid))
    { s with process_caps := upd s.process_caps pid [] } 0 hAll1
  have hcoi := hcore i
  have hsi : (s.ro i).state = .Live := by
    rcases hst i with hj | hj
    · rw [hlive] at hj
      exact hj.symm
    · rw [hlive] at hj
      cases hj
  have howner' : (s.ro i).owner_pid = pid := by
    rw [← entry_core_owner hcoi]
    exact howner
  have hscope' : (s.ro i).scope = .Process := by
    rw [← entry_core_scope hcoi]
    exact hscope
  have hmem : i ∈ s.process_caps pid := hIdx i hi hsi howner' hscope'
  have hmem2 : i ∈ sort_desc_by_creation
      { s with process_caps := upd s.process_caps pid [] } (s.process_caps pid) := by
    unfold sort_desc_by_creation
    exact (List.perm_insertionSort _ _).mem_iff.mpr hmem
  have := hlist i hmem2 hi
  rw [hlive] at this
  cases this

def c4rid : ResourceId := ⟨3, .PhysicalPage⟩

/-- A Live, Thread(5)-scoped capability owned by pid 1. -/
def c4entry : CapabilityEntry :=
  { resource_id := c4rid, owner_pid := 1, capabilities := caps.READ,
    generation := 0, state := .Live, created_at := 0, creation_order := 0,
    scope := .Thread 5 }

def c4state : CapState :=
  { initState with
      ro := upd initState.ro 0 c4entry,
      free_slots := [1],
      quick_cache := upd initState.quick_cache (1, c4rid) [0],
      thread_caps := upd initState.thread_caps 5 [0],
      resource_borrows := upd initState.resource_borrows c4rid (some .new),
      used_count := 1 }

/-- C4 (counterexample): `on_process_exit(1)` drains only
`process_caps[1]`; the Live Thread(5)-scoped slot owned by pid 1 is in
`thread_caps[5]` and survives the call Live, refuting the claim for
scopes `Thread(_)` and `Syscall(_, _)`. -/
theorem c4_counterexample :
    ((on_process_exit c4state 1).2.ro 0).state = .Live ∧
    ((on_process_exit c4state 1).2.ro 0).owner_pid = 1 ∧
    ((on_process_exit c4state 1).2.ro 0).scope = .Thread 5 := by decide

/-- `c6state` with a consistent process index for pid 1. -/
def c4stateP : CapState :=
  { c6state with process_caps := upd initState.process_caps 1 [0] }

/-- Witness: the amended claim applied to a table holding one Live
Process-scoped slot of pid 1 (slot 0): after the hook it is not Live. -/
theorem c4_amended_witness :
    ¬ (((on_process_exit c4stateP 1).2.ro 0).state = .Live ∧
       ((on_process_exit c4stateP 1).2.ro 0).owner_pid = 1 ∧
       ((on_process_exit c4stateP 1).2.ro 0).scope = .Process) := by
  have hIdx : pid_process_indexed c4stateP 1 := by
    intro i hi h1 h2 h3
    by_cases h0 : i = 0
    · subst h0
      show (0 : Nat) ∈ c4stateP.process_caps 1
      decide
    · exfalso
      have : c4stateP.ro i = CapabilityEntry.empty := by
        show upd initState.ro 0 c6entry i = _
        rw [upd_ne _ _ _ _ h0]
        rfl
      rw [this] at h1
      cases h1
  have hAll : AllInactive c4stateP := by
    intro r bs hb
    by_cases hr : r = c6rid
    · subst hr
      have hsome : c4stateP.resource_borrows c6rid = some ResourceBorrowState.new := by decide
      rw [hsome] at hb
      cases hb
      decide
    · have hnone : c4stateP.resource_borrows r = none := by
        show upd initState.resource_borrows c6rid (some ResourceBorrowState.new) r = none
        rw [upd_ne _ _ _ _ hr]
        rfl
      rw [hnone] at hb
      cases hb
  exact c4_amended c4stateP 1 hAll hIdx 0 (by decide)

-- ========== Counting loop lemmas (claim C8) ==========

theorem revoke_loop_process (l : List Nat) :
    ∀ s count, ((revoke_loop s l count).2).process_caps = s.process_caps := by
  induction l with
  | nil => intro s count; rfl
  | cons i rest ih =>
    intro s count
    rw [revoke_loop]
    split
    · cases hl : revoke_dfs_locked MAX_CAPABILITIES s i true with
      | mk r s2 =>
        have hp := revoke_dfs_process true MAX_CAPABILITIES s i
        rw [hl] at hp
        cases r with
        | ok u => rw [ih s2 (count + 1)]; exact hp
        | error e => rw [ih s2 count]; exact hp
    · exact ih s count

theorem revoke_loop_thread_sub (l : List Nat) :
    ∀ s count t, ((revoke_loop s l count).2).thread_caps t ⊆ s.thread_caps t := by
  induction l with
  | nil => intro s count t x hx; exact hx
  | cons i rest ih =>
    intro s count t
    rw [revoke_loop]
    split
    · cases hl : revoke_dfs_locked MAX_CAPABILITIES s i true with
      | mk r s2 =>
        have hp := revoke_dfs_thread_sub true MAX_CAPABILITIES s i t
        rw [hl] at hp
        cases r with
        | ok u => exact fun x hx => hp (ih s2 (count + 1) t hx)
        | error e => exact fun x hx => hp (ih s2 count t hx)
    · exact ih s count t

theorem revoke_loop_syscall_sub (l : List Nat) :
    ∀ s count k, ((revoke_loop s l count).2).syscall_caps k ⊆ s.syscall_caps k := by
  induction l with
  | nil => intro s count k x hx; exact hx
  | cons i rest ih =>
    intro s count k
    rw [revoke_loop]
    split
    · cases hl : revoke_dfs_locked MAX_CAPABILITIES s i true with
      | mk r s2 =>
        have hp := revoke_dfs_syscall_sub true MAX_CAPABILITIES s i k
        rw [hl] at hp
        cases r with
        | ok u => exact fun x hx => hp (ih s2 (count + 1) k hx)
        | error e => exact fun x hx => hp (ih s2 count k hx)
    · exact ih s count k

/-- The counting behaviour of `revoke_loop` when no borrow is active and
no drained index lies in the DFS subtree of an earlier one: the returned
count is exactly the number of drained indices that were not already
Free at entry.  (Descendants freed along the way are not counted.) -/
theorem revoke_loop_count (ch0 : Nat → List Nat) :
    ∀ l s count, AllInactive s → (∀ p, s.children_of p ⊆ ch0 p) →
      (∀ i ∈ l, i < MAX_CAPABILITIES) →
      l.Pairwise (fun a b => subtree_mem MAX_CAPABILITIES ch0 a b = false) →
      (revoke_loop s l count).1 =
        count + l.countP (fun i => decide ((s.ro i).state ≠ .Free)) := by
  intro l
  induction l with
  | nil => intro s count _ _ _ _; simp [revoke_loop]
  | cons i rest ih =>
    intro s count hAll hch hlt hpair
    rw [List.pairwise_cons] at hpair
    rw [revoke_loop]
    split
    · rename_i hne
      have hdfs := revoke_dfs_inactive true MAX_CAPABILITIES s i hAll
      cases hl : revoke_dfs_locked MAX_CAPABILITIES s i true with
      | mk r s2 =>
        rw [hl] at hdfs
        cases r with
        | error e => cases hdfs.1
        | ok u =>
          simp only []
          have hchsub : ∀ p, s2.children_of p ⊆ ch0 p := by
            intro p x hx
            have hc := revoke_dfs_children_sub true MAX_CAPABILITIES s i p
            rw [hl] at hc
            exact hch p (hc hx)
          have hframe : ∀ j ∈ rest, s2.ro j = s.ro j := by
            intro j hj
            have hf := (revoke_dfs_frame true ch0 j MAX_CAPABILITIES s i hch
              (hpair.1 j hj)).1
            rw [hl] at hf
            exact hf
          rw [ih s2 (count + 1) hdfs.2.1 hchsub
            (fun j hj => hlt j (List.mem_cons_of_mem i hj)) hpair.2]
          have hcongr : rest.countP (fun j => decide ((s2.ro j).state ≠ .Free)) =
              rest.countP (fun j => decide ((s.ro j).state ≠ .Free)) :=
            List.countP_congr (fun j hj => by rw [hframe j hj])
          rw [hcongr, List.countP_cons]
          have : decide ((s.ro i).state ≠ .Free) = true := by
            simp only [decide_eq_true_eq]
            exact hne
          rw [this, if_pos rfl]
          omega
    · rename_i hfree
      have hfree' : (s.ro i).state = .Free := by
        by_cases hc : (s.ro i).state = .Free
        · exact hc
        · exact absurd hc (by simpa using hfree)
      rw [ih s count hAll hch (fun j hj => hlt j (List.mem_cons_of_mem i hj)) hpair.2]
      rw [List.countP_cons]
      have : decide ((s.ro i).state ≠ .Free) = false := by
        simp only [decide_eq_false_iff_not]
        intro hcon
        exact hcon hfree'
      rw [this, if_neg Bool.false_ne_true]
      omega

theorem sort_desc_strict (s : CapState) (idxs : List Nat)
    (hne : idxs.Pairwise (fun a b => (s.ro a).creation_order ≠ (s.ro b).creation_order)) :
    (sort_desc_by_creation s idxs).Pairwise
      (fun a b => (s.ro b).creation_order < (s.ro a).creation_order) := by
  unfold sort_desc_by_creation
  haveI : IsTotal Nat (fun a b => (s.ro b).creation_order ≤ (s.ro a).creation_order) :=
    ⟨fun a b => le_total _ _⟩
  haveI : IsTrans Nat (fun a b => (s.ro b).creation_order ≤ (s.ro a).creation_order) :=
    ⟨fun a b c hab hbc => le_trans hbc hab⟩
  have hsorted := List.sorted_insertionSort
    (fun a b => (s.ro b).creation_order ≤ (s.ro a).creation_order) idxs
  have hperm := List.perm_insertionSort
    (fun a b => (s.ro b).creation_order ≤ (s.ro a).creation_order) idxs
  have hne2 := (hperm.symm.pairwise_iff (fun hab => Ne.symm hab)).mp hne
  have hand := hsorted.and hne2
  exact hand.imp (fun hab => lt_of_le_of_ne hab.1 (Ne.symm hab.2))

/-- Core of the C8 claim for `revoke_indices_deterministic`. -/
theorem revoke_indices_spec (s : CapState) (idxs : List Nat)
    (hAll : AllInactive s) (hlt : ∀ i ∈ idxs, i < MAX_CAPABILITIES)
    (hpair : idxs.Pairwise (fun a b =>
       subtree_mem MAX_CAPABILITIES s.children_of a b = false ∧
       subtree_mem MAX_CAPABILITIES s.children_of b a = false))
    (hneq : idxs.Pairwise (fun a b => (s.ro a).creation_order ≠ (s.ro b).creation_order)) :
    (revoke_indices_deterministic s idxs).1 =
      idxs.countP (fun i => decide ((s.ro i).state ≠ .Free)) ∧
    (sort_desc_by_creation s idxs).Pairwise
      (fun a b => (s.ro b).creation_order < (s.ro a).creation_order) := by
  refine ⟨?_, sort_desc_strict s idxs hneq⟩
  unfold revoke_indices_deterministic
  have hperm := List.perm_insertionSort
    (fun a b => (s.ro b).creation_order ≤ (s.ro a).creation_order) idxs
  have hmem : ∀ i ∈ sort_desc_by_creation s idxs, i < MAX_CAPABILITIES := by
    intro i hi
    exact hlt i (hperm.mem_iff.mp hi)
  have hpairL := (hperm.symm.pairwise_iff (fun hab => ⟨hab.2, hab.1⟩)).mp hpair
  have hcount := revoke_loop_count s.children_of (sort_desc_by_creation s idxs) s 0
    hAll (fun p x hx => hx) hmem (hpairL.imp (fun hab => hab.1))
  rw [hcount]
  have hperm2 : (sort_desc_by_creation s idxs).Perm idxs := hperm
  rw [hperm2.countP_eq]
  omega

/-- C8 (amended): each scope hook removes the matching scope-index key
entirely and performs strict DFS revocation over the drained indices in
strictly decreasing `creation_order` (assuming the drained slots have
pairwise distinct creation orders, which bind's global counter
guarantees).  The returned value counts the drained indices that were not
already Free when their turn came — each revoked root once — NOT the
total number of slots freed: descendants freed by the DFS are not
counted (see the counterexample).  Stated under no-active-borrow and
pairwise-disjoint-subtree hypotheses, in-range indices assumed. -/
theorem c8_amended :
    (∀ (s : CapState) (pid : Nat),
       AllInactive s →
       (∀ i ∈ s.process_caps pid, i < MAX_CAPABILITIES) →
       (s.process_caps pid).Pairwise (fun a b =>
          subtree_mem MAX_CAPABILITIES s.children_of a b = false ∧
          subtree_mem MAX_CAPABILITIES s.children_of b a = false) →
       (s.process_caps pid).Pairwise (fun a b =>
          (s.ro a).creation_order ≠ (s.ro b).creation_order) →
       (on_process_exit s pid).1 =
         (s.process_caps pid).countP (fun i => decide ((s.ro i).state ≠ .Free)) ∧
       (on_process_exit s pid).2.process_caps pid = [] ∧
       (sort_desc_by_creation s (s.process_caps pid)).Pairwise
         (fun a b => (s.ro b).creation_order < (s.ro a).creation_order)) ∧
    (∀ (s : CapState) (tid : ThreadId),
       AllInactive s →
       (∀ i ∈ s.thread_caps tid, i < MAX_CAPABILITIES) →
       (s.thread_caps tid).Pairwise (fun a b =>
          subtree_mem MAX_CAPABILITIES s.children_of a b = false ∧
          subtree_mem MAX_CAPABILITIES s.children_of b a = false) →
       (s.thread_caps tid).Pairwise (fun a b =>
          (s.ro a).creation_order ≠ (s.ro b).creation_order) →
       (on_thread_exit s tid).1 =
         (s.thread_caps tid).countP (fun i => decide ((s.ro i).state ≠ .Free)) ∧
       (on_thread_exit s tid).2.thread_caps tid = [] ∧
       (sort_desc_by_creation s (s.thread_caps tid)).Pairwise
         (fun a b => (s.ro b).creation_order < (s.ro a).creation_order)) ∧
    (∀ (s : CapState) (tid : ThreadId) (seq : Nat),
       AllInactive s →
       (∀ i ∈ s.syscall_caps (tid, seq), i < MAX_CAPABILITIES) →
       (s.syscall_caps (tid, seq)).Pairwise (fun a b =>
          subtree_mem MAX_CAPABILITIES s.children_of a b = false ∧
          subtree_mem MAX_CAPABILITIES s.children_of b a = false) →
       (s.syscall_caps (tid, seq)).Pairwise (fun a b =>
          (s.ro a).creation_order ≠ (s.ro b).creation_order) →
       (on_syscall_return s tid seq).1 =
         (s.syscall_caps (tid, seq)).countP (fun i => decide ((s.ro i).state ≠ .Free)) ∧
       (on_syscall_return s tid seq).2.syscall_caps (tid, seq) = [] ∧
       (sort_desc_by_creation s (s.syscall_caps (tid, seq))).Pairwise
         (fun a b => (s.ro b).creation_order < (s.ro a).creation_order)) := by
  refine ⟨?_, ?_, ?_⟩
  · intro s pid hAll hlt hpair hneq
    have hspec := revoke_indices_spec { s with process_caps := upd s.process_caps pid [] }
      (s.process_caps pid) hAll hlt hpair hneq
    refine ⟨hspec.1, ?_, hspec.2⟩
    show ((revoke_loop { s with process_caps := upd s.process_caps pid [] }
      (sort_desc_by_creation { s with process_caps := upd s.process_caps pid [] }
        (s.process_caps pid)) 0).2).process_caps pid = []
    rw [revoke_loop_process]
    exact upd_same _ _ _
  · intro s tid hAll hlt hpair hneq
    have hspec := revoke_indices_spec { s with thread_caps := upd s.thread_caps tid [] }
      (s.thread_caps tid) hAll hlt hpair hneq
    refine ⟨hspec.1, ?_, hspec.2⟩
    have hsub := revoke_loop_thread_sub
      (sort_desc_by_creation { s with thread_caps := upd s.thread_caps tid [] }
        (s.thread_caps tid))
      { s with thread_caps := upd s.thread_caps tid [] } 0 tid
    refine List.eq_nil_iff_forall_not_mem.mpr (fun x hx => ?_)
    have hx2 := hsub hx
    have : ({ s with thread_caps := upd s.thread_caps tid [] } : CapState).thread_caps tid
        = ([] : List Nat) := upd_same _ _ _
    rw [this] at hx2
    exact List.not_mem_nil x hx2
  · intro s tid seq hAll hlt hpair hneq
    have hspec := revoke_indices_spec
      { s with syscall_caps := upd s.syscall_caps (tid, seq) [] }
      (s.syscall_caps (tid, seq)) hAll hlt hpair hneq
    refine ⟨hspec.1, ?_, hspec.2⟩
    have hsub := revoke_loop_syscall_sub
      (sort_desc_by_creation { s with syscall_caps := upd s.syscall_caps (tid, seq) [] }
        (s.syscall_caps (tid, seq)))
      { s with syscall_caps := upd s.syscall_caps (tid, seq) [] } 0 (tid, seq)
    refine List.eq_nil_iff_forall_not_mem.mpr (fun x hx => ?_)
    have hx2 := hsub hx
    have : ({ s with syscall_caps := upd s.syscall_caps (tid, seq) [] } : CapState).syscall_caps
        (tid, seq) = ([] : List Nat) := upd_same _ _ _
    rw [this] at hx2
    exact List.not_mem_nil x hx2

def c8rid : ResourceId := ⟨4, .PhysicalPage⟩

/-- Root capability of pid 1 (creation order 0) with a granted child. -/
def c8root : CapabilityEntry :=
  { resource_id := c8rid, owner_pid := 1, capabilities := caps.ALL,
    generation := 0, state := .Live, created_at := 0, creation_order := 0,
    scope := .Process }

/-- Child capability granted to pid 2 (creation order 1). -/
def c8child : CapabilityEntry :=
  { resource_id := c8rid, owner_pid := 2, capabilities := caps.READ,
    generation := 0, state := .Live, created_at := 0, creation_order := 1,
    scope := .Process }

def c8state : CapState :=
  { initState with
      ro := upd (upd initState.ro 0 c8root) 1 c8child,
      free_slots := [2, 3],
      quick_cache := upd (upd initState.quick_cache (1, c8rid) [0]) (2, c8rid) [1],
      process_caps := upd (upd initState.process_caps 1 [0]) 2 [1],
      children_of := upd initState.children_of 0 [1],
      parent_of := upd initState.parent_of 1 (some 0),
      used_count := 2 }

/-- C8 (counterexample): `on_process_exit(1)` drains `[0]`, and the
strict DFS on slot 0 frees both slot 0 and its granted child slot 1 —
two slots actually transition to Free — yet the hook returns 1: it
counts drained roots, not slots freed. -/
theorem c8_counterexample :
    (on_process_exit c8state 1).1 = 1 ∧
    (c8state.ro 0).state = .Live ∧
    (c8state.ro 1).state = .Live ∧
    ((on_process_exit c8state 1).2.ro 0).state = .Free ∧
    ((on_process_exit c8state 1).2.ro 1).state = .Free := by decide

/-- Witness: the amended claim applied to `c8state`'s pid-1 hook (count
1 = the one drained non-Free index, the key drained, trivially ordered)
and to its pid-2 hook. -/
theorem c8_amended_witness :
    ((on_process_exit c8state 1).1 =
      (c8state.process_caps 1).countP (fun i => decide ((c8state.ro i).state ≠ .Free)) ∧
     (on_process_exit c8state 1).2.process_caps 1 = [] ∧
     (sort_desc_by_creation c8state (c8state.process_caps 1)).Pairwise
       (fun a b => (c8state.ro b).creation_order < (c8state.ro a).creation_order)) ∧
    (on_thread_exit c8state 9).1 =
      (c8state.thread_caps 9).countP (fun i => decide ((c8state.ro i).state ≠ .Free)) := by
  have hAll : AllInactive c8state := by
    intro r bs hb
    cases hb
  refine ⟨c8_amended.1 c8state 1 hAll (by decide) (by decide) (by decide), ?_⟩
  exact (c8_amended.2.1 c8state 9 hAll (by decide) (by decide) (by decide)).1

-- ========== Pending-revocation invariant (claim C2) ==========

theorem fast_validate_ok (s : CapState) (h : CapabilityHandle)
    (hv : fast_validate s h = .ok ()) :
    h.index < MAX_CAPABILITIES ∧ (s.ro h.index).state = .Live ∧
    (s.ro h.index).generation = h.generation ∧ (s.ro h.index).scope = h.scope := by
  unfold fast_validate at hv
  split at hv
  · cases hv
  · rename_i hlt
    simp only [] at hv
    split at hv
    · cases hv
    · split at hv
      · cases hv
      · split at hv
        · cases hv
        · rename_i h1 h2 h3
          push_neg at h1 h2 h3
          exact ⟨by omega, h1, h2, h3⟩

/-- Every queued index is a `PendingRevoke` slot of the queue's resource,
and a non-empty queue means that resource still has active borrows. -/
def pendingInv (s : CapState) : Prop :=
  (∀ r j, j ∈ s.pending_revoke r →
     (s.ro j).state = .PendingRevoke ∧ (s.ro j).resource_id = r) ∧
  (∀ r, s.pending_revoke r ≠ [] →
     ∃ bs, s.resource_borrows r = some bs ∧ bs.has_active = true)

theorem revoke_one_pendingInv (s : CapState) (idx : Nat) (strict : Bool)
    (h : pendingInv s) : pendingInv ((revoke_one_locked s idx strict).2) := by
  obtain ⟨ha, hb⟩ := h
  rcases revoke_one_cases s idx strict with ⟨he, _, _⟩ | ⟨he, _, bs, hbs, hact⟩ | ⟨he, hinact⟩
  · rw [he]
    exact ⟨ha, hb⟩
  · rw [he]
    constructor
    · intro r j hj
      show ((pending_state s idx).ro j).state = _ ∧ ((pending_state s idx).ro j).resource_id = _
      have hpj : j ∈ upd s.pending_revoke (s.ro idx).resource_id
          (s.pending_revoke (s.ro idx).resource_id ++ [idx]) r := hj
      by_cases hj0 : j = idx
      · subst hj0
        refine ⟨?_, ?_⟩
        · show ((upd s.ro j { s.ro j with state := .PendingRevoke }) j).state = _
          rw [upd_same]
        · show ((upd s.ro j { s.ro j with state := .PendingRevoke }) j).resource_id = r
          rw [upd_same]
          show (s.ro j).resource_id = r
          by_cases hr : r = (s.ro j).resource_id
          · exact hr.symm
          · rw [upd_ne _ _ _ _ hr] at hpj
            exact (ha r j hpj).2
      · rw [pending_state]
        simp only []
        rw [upd_ne _ _ _ _ hj0]
        by_cases hr : r = (s.ro idx).resource_id
        · subst hr
          rw [upd_same] at hpj
          rcases List.mem_append.mp hpj with hm | hm
          · exact ha _ j hm
          · simp at hm
            exact absurd hm hj0
        · rw [upd_ne _ _ _ _ hr] at hpj
          exact ha r j hpj
    · intro r hr
      show ∃ bs', (pending_state s idx).resource_borrows r = some bs' ∧ bs'.has_active = true
      have hpr : upd s.pending_revoke (s.ro idx).resource_id
          (s.pending_revoke (s.ro idx).resource_id ++ [idx]) r ≠ [] := hr
      by_cases hreq : r = (s.ro idx).resource_id
      · subst hreq
        exact ⟨bs, hbs, hact⟩
      · rw [upd_ne _ _ _ _ hreq] at hpr
        exact hb r hpr
  · rw [he]
    obtain ⟨qc, tc, sc, ch, pf, fs, uc, hsh, _⟩ := revoke_free_path_shape s idx
    rw [hsh]
    constructor
    · intro r j hj
      have hj' : j ∈ s.pending_revoke r := hj
      have hja := ha r j hj'
      have hjne : j ≠ idx := by
        intro hcon
        subst hcon
        have hne2 : s.pending_revoke (s.ro j).resource_id ≠ [] := by
          rw [hja.2]
          exact List.ne_nil_of_mem hj'
        obtain ⟨bs, hbs, hact⟩ := hb _ hne2
        rw [hinact bs hbs] at hact
        cases hact
      show ((upd s.ro idx (freed_entry s idx)) j).state = _ ∧
        ((upd s.ro idx (freed_entry s idx)) j).resource_id = _
      rw [upd_ne _ _ _ _ hjne]
      exact hja
    · intro r hr
      exact hb r hr

theorem revoke_dfs_pendingInv (strict : Bool) (fuel : Nat) (s : CapState) (idx : Nat)
    (h : pendingInv s) : pendingInv ((revoke_dfs_locked fuel s idx strict).2) :=
  (revoke_dfs_rel strict pendingInv (fun _ _ => True)
    (fun _ _ _ _ _ => trivial) (fun _ => trivial)
    (fun s' i h' => ⟨revoke_one_pendingInv s' i strict h', trivial⟩) fuel s idx h).1

/-- A deferred (non-strict) DFS revocation of a Live slot whose resource
has an active borrow marks the slot `PendingRevoke` and queues it under
its resource. -/
theorem revoke_dfs_deferred_root (fuel : Nat) (s : CapState) (idx : Nat)
    (hidx : idx < MAX_CAPABILITIES) (hlive : (s.ro idx).state = .Live)
    (bs0 : ResourceBorrowState)
    (hbs : s.resource_borrows ((s.ro idx).resource_id) = some bs0)
    (hact : bs0.has_active = true) :
    (((revoke_dfs_locked (fuel + 1) s idx false).2).ro idx).state = .PendingRevoke ∧
    idx ∈ ((revoke_dfs_locked (fuel + 1) s idx false).2).pending_revoke
      ((s.ro idx).resource_id) := by
  rw [revoke_dfs_locked]
  rw [if_neg (Nat.not_le.mpr hidx)]
  rw [if_neg (by rw [hlive]; intro hcon; cases hcon)]
  have hlistok := (revoke_dfs_list_ok (fun s' c => revoke_dfs_locked fuel s' c false)
    (fun _ => True) (fun s' c _ => ⟨trivial, revoke_dfs_ok_nonstrict fuel s' c⟩)
    (s.children_of idx) s trivial).1
  have hlistbor := (revoke_dfs_list_main (fun s' c => revoke_dfs_locked fuel s' c false)
    (fun _ => True) (fun a b => b.resource_borrows = a.resource_borrows)
    (fun a b c h1 h2 => h2.trans h1) (fun _ => rfl)
    (fun s' c _ => ⟨trivial, revoke_dfs_borrows false fuel s' c⟩)
    (s.children_of idx) s trivial).2
  have hlistcore := (revoke_dfs_list_main (fun s' c => revoke_dfs_locked fuel s' c false)
    (fun _ => True) (fun a b => ∀ j, entry_core (b.ro j) = entry_core (a.ro j))
    (fun a b c h1 h2 j => (h2 j).trans (h1 j)) (fun _ _ => rfl)
    (fun s' c _ => ⟨trivial, fun j => revoke_dfs_core false fuel s' c j⟩)
    (s.children_of idx) s trivial).2
  cases hl : revoke_dfs_list (fun s' c => revoke_dfs_locked fuel s' c false) s
      (s.children_of idx) with
  | mk r s2 =>
    rw [hl] at hlistok hlistbor hlistcore
    cases r with
    | error e => cases hlistok
    | ok u =>
      simp only []
      have hrid2 : (s2.ro idx).resource_id = (s.ro idx).resource_id :=
        entry_core_resource (hlistcore idx)
      rcases revoke_one_cases s2 idx false with ⟨_, hs, _⟩ | ⟨he, _, _⟩ | ⟨he, hinact⟩
      · cases hs
      · rw [he]
        constructor
        · show ((upd s2.ro idx { s2.ro idx with state := .PendingRevoke }) idx).state = _
          rw [upd_same]
        · show idx ∈ (upd s2.pending_revoke (s2.ro idx).resource_id
            (s2.pending_revoke (s2.ro idx).resource_id ++ [idx])) ((s.ro idx).resource_id)
          rw [← hrid2, upd_same]
          exact List.mem_append.mpr (Or.inr (List.mem_singleton.mpr rfl))
      · exfalso
        have : s2.resource_borrows ((s2.ro idx).resource_id) = some bs0 := by
          rw [hrid2, hlistbor]
          exact hbs
        rw [hinact bs0 this] at hact
        cases hact

-- ========== Completion of deferred revocations (claim C2) ==========

theorem complete_list_frame (l : List Nat) :
    ∀ (st : CapState) (j : Nat), j ∉ l → (complete_list st l).ro j = st.ro j := by
  induction l with
  | nil => intro st j _; rfl
  | cons i rest ih =>
    intro st j hj
    show (complete_list ((revoke_one_locked st i true).2) rest).ro j = st.ro j
    rw [ih _ j (fun hc => hj (List.mem_cons_of_mem i hc))]
    exact revoke_one_frame st i true j (fun hc => hj (hc ▸ List.mem_cons_self i rest))

theorem complete_list_pending (l : List Nat) :
    ∀ st : CapState, (complete_list st l).pending_revoke = st.pending_revoke := by
  induction l with
  | nil => intro st; rfl
  | cons i rest ih =>
    intro st
    show (complete_list ((revoke_one_locked st i true).2) rest).pending_revoke = _
    rw [ih]
    exact revoke_one_pending_strict st i

theorem complete_list_frees (rid : ResourceId) (l : List Nat) :
    ∀ st : CapState,
      (∀ j ∈ l, (st.ro j).resource_id = rid) →
      (∀ bs, st.resource_borrows rid = some bs → bs.has_active = false) →
      l.Nodup →
      ∀ j ∈ l, ((complete_list st l).ro j).state = .Free ∧
        ((complete_list st l).ro j).generation = ((st.ro j).generation + 1) % U32MOD := by
  induction l with
  | nil => intro st _ _ _ j hj; cases hj
  | cons i rest ih =>
    intro st hrid hinact hnd j hj
    rw [List.nodup_cons] at hnd
    have hone : revoke_one_locked st i true = (.ok (), revoke_free_path st i) := by
      rcases revoke_one_cases st i true with ⟨_, _, bs, hbs, hact⟩ | ⟨_, hs, _⟩ | ⟨he, _⟩
      · exfalso
        rw [hrid i (List.mem_cons_self i rest)] at hbs
        rw [hinact bs hbs] at hact
        cases hact
      · cases hs
      · exact he
    obtain ⟨qc, tc, sc, ch, pf, fs, uc, hsh, _⟩ := revoke_free_path_shape st i
    have hstep : (revoke_one_locked st i true).2.ro =
        upd st.ro i (freed_entry st i) := by
      rw [hone, hsh]
    show ((complete_list ((revoke_one_locked st i true).2) rest).ro j).state = _ ∧
      ((complete_list ((revoke_one_locked st i true).2) rest).ro j).generation = _
    rcases List.mem_cons.mp hj with heq | hmem
    · subst heq
      rw [complete_list_frame rest _ j hnd.1]
      rw [hstep, upd_same]
      exact ⟨rfl, rfl⟩
    · have hres := ih ((revoke_one_locked st i true).2)
        (fun j' hj' => by
          rw [hstep, upd_ne _ _ _ _ (fun hc => hnd.1 (by rw [← hc]; exact hj'))]
          exact hrid j' (List.mem_cons_of_mem i hj'))
        (fun bs hbs => by
          rw [revoke_one_borrows] at hbs
          exact hinact bs hbs)
        hnd.2 j hmem
      refine ⟨hres.1, ?_⟩
      rw [hres.2, hstep, upd_ne _ _ _ _ (fun hc => hnd.1 (by rw [← hc]; exact hmem))]

theorem release_shared_single (bs : ResourceBorrowState) (i : Nat) (t : ThreadId)
    (hsh : bs.shared = [(i, t)]) :
    bs.release_shared i t = (.ok (), { bs with shared := [] }) := by
  unfold ResourceBorrowState.release_shared
  rw [hsh]
  simp [List.findIdx?, ResourceBorrowState.swap_remove]

/-- Once the queue's resource has no active borrow, `try_complete_pending_for`
frees every queued slot (bumping its generation) and empties the queue. -/
theorem try_complete_frees (s : CapState) (rid : ResourceId)
    (hrid : ∀ j ∈ s.pending_revoke rid, (s.ro j).resource_id = rid)
    (hnd : (s.pending_revoke rid).Nodup)
    (hinact : ∀ bs, s.resource_borrows rid = some bs → bs.has_active = false) :
    (∀ j ∈ s.pending_revoke rid,
      ((try_complete_pending_for s rid).ro j).state = .Free ∧
      ((try_complete_pending_for s rid).ro j).generation =
        ((s.ro j).generation + 1) % U32MOD) ∧
    (try_complete_pending_for s rid).pending_revoke rid = [] := by
  unfold try_complete_pending_for
  by_cases hemp : (s.pending_revoke rid).isEmpty = true
  · rw [if_pos hemp]
    have hnil : s.pending_revoke rid = [] := by
      cases hl : s.pending_revoke rid with
      | nil => rfl
      | cons a l => rw [hl] at hemp; simp [List.isEmpty] at hemp
    constructor
    · intro j hj
      rw [hnil] at hj
      cases hj
    · exact hnil
  · rw [if_neg hemp]
    simp only []
    have hproc : (match s.resource_borrows rid with
        | some bs => !bs.has_active
        | none => true) = true := by
      cases hb : s.resource_borrows rid with
      | none => rfl
      | some bs => simp [hinact bs hb]
    rw [hproc, if_pos rfl]
    have hmain := complete_list_frees rid (s.pending_revoke rid)
      { s with pending_revoke := upd s.pending_revoke rid [] }
      (fun j hj => hrid j hj) (fun bs hb => hinact bs hb) hnd
    refine ⟨fun j hj => hmain j hj, ?_⟩
    rw [complete_list_pending]
    exact upd_same _ _ _

def c2rid : ResourceId := ⟨7, .Device⟩

/-- Slot 0: the capability being revoked while its resource is borrowed. -/
def c2target : CapabilityEntry :=
  { resource_id := c2rid, owner_pid := 1, capabilities := caps.READ,
    generation := 4, state := .Live, created_at := 0, creation_order := 0,
    scope := .Process }

/-- Slot 1: the capability through which thread 9 holds the one shared
borrow of `c2rid`. -/
def c2holder : CapabilityEntry :=
  { resource_id := c2rid, owner_pid := 2, capabilities := caps.READ,
    generation := 0, state := .Live, created_at := 0, creation_order := 1,
    scope := .Process }

def c2bs0 : ResourceBorrowState :=
  { shared := [(1, 9)], exclusive := none, frozen_count := 0 }

/-- Slot 2: a capability for the same resource delegated from slot 0 —
a child in the revocation subtree. -/
def c2child : CapabilityEntry :=
  { resource_id := c2rid, owner_pid := 3, capabilities := caps.READ,
    generation := 5, state := .Live, created_at := 0, creation_order := 2,
    scope := .Process }

def c2state : CapState :=
  { initState with
      ro := upd (upd (upd initState.ro 0 c2target) 1 c2holder) 2 c2child,
      free_slots := [3],
      quick_cache := upd (upd initState.quick_cache (1, c2rid) [0]) (2, c2rid) [1],
      children_of := upd initState.children_of 0 [2],
      parent_of := upd initState.parent_of 2 (some 0),
      resource_borrows := upd initState.resource_borrows c2rid (some c2bs0),
      used_count := 3 }

def c2h : CapabilityHandle := mkHandle 0 c2target

def c2hs : CapabilityHandle := mkHandle 1 c2holder


-- ========== Subtree reachability lemmas for the deferred-revoke claim ==========

theorem subtree_mem_fuel_mono (ch : Nat → List Nat) (j : Nat) :
    ∀ f g r, f ≤ g → subtree_mem f ch r j = true → subtree_mem g ch r j = true := by
  intro f
  induction f with
  | zero => intro g r _ hm; rw [subtree_mem] at hm; cases hm
  | succ f ih =>
    intro g r hfg hm
    cases g with
    | zero => omega
    | succ g =>
      rw [subtree_mem] at hm
      rw [subtree_mem]
      rcases Bool.or_eq_true_iff.mp hm with hr | hany
      · exact Bool.or_eq_true_iff.mpr (Or.inl hr)
      · rcases List.any_eq_true.mp hany with ⟨c, hc, hmc⟩
        exact Bool.or_eq_true_iff.mpr (Or.inr (List.any_eq_true.mpr
          ⟨c, hc, ih g c (Nat.le_of_succ_le_succ hfg) hmc⟩))

theorem subtree_mem_ch_mono (ch1 ch2 : Nat → List Nat) (j : Nat)
    (hsub : ∀ p, ch1 p ⊆ ch2 p) :
    ∀ f r, subtree_mem f ch1 r j = true → subtree_mem f ch2 r j = true := by
  intro f
  induction f with
  | zero => intro r hm; rw [subtree_mem] at hm; cases hm
  | succ f ih =>
    intro r hm
    rw [subtree_mem] at hm
    rw [subtree_mem]
    rcases Bool.or_eq_true_iff.mp hm with hr | hany
    · exact Bool.or_eq_true_iff.mpr (Or.inl hr)
    · rcases List.any_eq_true.mp hany with ⟨c, hc, hmc⟩
      exact Bool.or_eq_true_iff.mpr (Or.inr (List.any_eq_true.mpr
        ⟨c, hsub r hc, ih c hmc⟩))

/-- When every delegation edge strictly decreases a rank, membership at any
depth is already membership at depth `rank r + 1`. -/
theorem subtree_mem_rank (ch : Nat → List Nat) (rank : Nat → Nat) (j : Nat)
    (hrank : ∀ p c, c ∈ ch p → rank c < rank p) :
    ∀ f r, subtree_mem f ch r j = true → subtree_mem (rank r + 1) ch r j = true := by
  intro f
  induction f with
  | zero => intro r hm; rw [subtree_mem] at hm; cases hm
  | succ f ih =>
    intro r hm
    rw [subtree_mem] at hm
    rcases Bool.or_eq_true_iff.mp hm with hr | hany
    · rw [subtree_mem]
      exact Bool.or_eq_true_iff.mpr (Or.inl hr)
    · rcases List.any_eq_true.mp hany with ⟨c, hc, hmc⟩
      have hmc2 := ih c hmc
      have hmc3 : subtree_mem (rank r) ch c j = true :=
        subtree_mem_fuel_mono ch j _ _ c (hrank r c hc) hmc2
      rw [subtree_mem]
      exact Bool.or_eq_true_iff.mpr (Or.inr (List.any_eq_true.mpr ⟨c, hc, hmc3⟩))

/-- If removing only edges incident to `idx` destroys reachability of `j`
from `r`, then `j` was reachable from `idx`. -/
theorem subtree_destroy (ch ch' : Nat → List Nat) (idx j : Nat)
    (h3 : ∀ p c, c ∈ ch p → c ∈ ch' p ∨ c = idx ∨ p = idx) :
    ∀ f r, subtree_mem f ch r j = true → subtree_mem f ch' r j = false →
      subtree_mem f ch idx j = true := by
  intro f
  induction f with
  | zero => intro r hm; rw [subtree_mem] at hm; cases hm
  | succ f ih =>
    intro r hm hd
    rw [subtree_mem] at hm hd
    rw [Bool.or_eq_false_iff] at hd
    rcases Bool.or_eq_true_iff.mp hm with hr | hany
    · rw [hr] at hd
      cases hd.1
    · rcases List.any_eq_true.mp hany with ⟨c, hc, hmc⟩
      by_cases hridx : r = idx
      · subst hridx
        rw [subtree_mem]
        exact Bool.or_eq_true_iff.mpr (Or.inr (List.any_eq_true.mpr ⟨c, hc, hmc⟩))
      · rcases h3 r c hc with hc' | hcidx | hpidx
        · have hdc : subtree_mem f ch' c j = false := by
            rcases List.any_eq_false.mp hd.2 c hc' with hfalse
            exact Bool.eq_false_iff.mpr hfalse
          exact subtree_mem_fuel_mono ch j f (f + 1) idx (Nat.le_succ f) (ih c hmc hdc)
        · rw [hcidx] at hmc
          exact subtree_mem_fuel_mono ch j f (f + 1) idx (Nat.le_succ f) hmc
        · exact absurd hpidx hridx

/-- A slot already dealt with by revocation: freed, or parked in
`PendingRevoke` awaiting borrow release. -/
def slotDone (s : CapState) (j : Nat) : Prop :=
  (s.ro j).state = .Free ∨ (s.ro j).state = .PendingRevoke

/-- Reachable tables keep no delegation edges out of `Free` slots
(`free_slot_locked` is always preceded by `unlink_graph_locked`). -/
def freeChildrenInv (s : CapState) : Prop :=
  ∀ p, (s.ro p).state = .Free → s.children_of p = []

theorem scope_remove_ch (s : CapState) (sc : ScopeKind) (idx : Nat) :
    (scope_remove_idx s sc idx).children_of = s.children_of := by
  cases sc <;> rfl

theorem unlink_ch_facts (s : CapState) (idx : Nat) :
    (unlink_graph_locked s idx).children_of idx = [] ∧
    ∀ p c, c ∈ s.children_of p →
      c ∈ (unlink_graph_locked s idx).children_of p ∨ c = idx ∨ p = idx := by
  unfold unlink_graph_locked
  cases hpar : s.parent_of idx with
  | none =>
    simp only []
    constructor
    · exact upd_same _ _ _
    · intro p c hc
      by_cases hp : p = idx
      · exact Or.inr (Or.inr hp)
      · rw [upd_ne _ _ _ _ hp]
        exact Or.inl hc
  | some q =>
    simp only []
    constructor
    · exact upd_same _ _ _
    · intro p c hc
      by_cases hp : p = idx
      · exact Or.inr (Or.inr hp)
      · rw [upd_ne _ _ _ _ hp]
        by_cases hpq : p = q
        · subst hpq
          rw [upd_same]
          by_cases hcidx : c = idx
          · exact Or.inr (Or.inl hcidx)
          · exact Or.inl (List.mem_filter.mpr ⟨hc, by simp [hcidx]⟩)
        · rw [upd_ne _ _ _ _ hpq]
          exact Or.inl hc

theorem revoke_free_path_ch (s : CapState) (idx : Nat) :
    (revoke_free_path s idx).children_of idx = [] ∧
    ∀ p c, c ∈ s.children_of p →
      c ∈ (revoke_free_path s idx).children_of p ∨ c = idx ∨ p = idx := by
  have h1 : (revoke_free_path s idx).children_of =
      (unlink_graph_locked
        (scope_remove_idx
          (qc_remove_idx s (s.ro idx).owner_pid (s.ro idx).resource_id idx)
          (s.ro idx).scope idx) idx).children_of := rfl
  have h2 : (scope_remove_idx
      (qc_remove_idx s (s.ro idx).owner_pid (s.ro idx).resource_id idx)
      (s.ro idx).scope idx).children_of = s.children_of := by
    rw [scope_remove_ch]
    rfl
  obtain ⟨u1, u2⟩ := unlink_ch_facts
    (scope_remove_idx (qc_remove_idx s (s.ro idx).owner_pid (s.ro idx).resource_id idx)
      (s.ro idx).scope idx) idx
  constructor
  · rw [h1]
    exact u1
  · intro p c hc
    rw [h1]
    exact u2 p c (by rw [h2]; exact hc)

theorem revoke_one_ch_facts (s : CapState) (idx : Nat) (strict : Bool) :
    ∀ p c, c ∈ s.children_of p →
      c ∈ ((revoke_one_locked s idx strict).2).children_of p ∨ c = idx ∨ p = idx := by
  rcases revoke_one_cases s idx strict with ⟨he, _, _⟩ | ⟨he, _, _⟩ | ⟨he, _⟩
  · rw [he]
    exact fun p c hc => Or.inl hc
  · rw [he]
    exact fun p c hc => Or.inl hc
  · rw [he]
    exact (revoke_free_path_ch s idx).2

theorem revoke_one_freeInv (s : CapState) (idx : Nat) (strict : Bool)
    (h : freeChildrenInv s) : freeChildrenInv ((revoke_one_locked s idx strict).2) := by
  rcases revoke_one_cases s idx strict with ⟨he, _, _⟩ | ⟨he, _, _⟩ | ⟨he, _⟩
  · rw [he]
    exact h
  · rw [he]
    intro p hp
    by_cases hpi : p = idx
    · exfalso
      subst hpi
      have hP : ((pending_state s p).ro p).state = .PendingRevoke := by
        show ((upd s.ro p { s.ro p with state := .PendingRevoke }) p).state = _
        rw [upd_same]
      rw [hp] at hP
      cases hP
    · show s.children_of p = []
      apply h p
      have hro : (pending_state s idx).ro p = s.ro p := by
        show (upd s.ro idx _) p = s.ro p
        exact upd_ne _ _ _ _ hpi
      rw [hro] at hp
      exact hp
  · rw [he]
    intro p hp
    by_cases hpi : p = idx
    · subst hpi
      exact (revoke_free_path_ch s p).1
    · obtain ⟨qc, tc, sc, ch, pf, fs, uc, hsh, hch, _⟩ := revoke_free_path_shape s idx
      have hro : (revoke_free_path s idx).ro p = s.ro p := by
        rw [hsh]
        show (upd s.ro idx (freed_entry s idx)) p = s.ro p
        exact upd_ne _ _ _ _ hpi
      rw [hro] at hp
      have hnil := h p hp
      have hsub : (revoke_free_path s idx).children_of p ⊆ s.children_of p := by
        rw [hsh]
        exact hch p
      rw [hnil] at hsub
      exact List.eq_nil_iff_forall_not_mem.mpr (fun x hx => (List.not_mem_nil x) (hsub hx))

theorem revoke_dfs_freeInv (strict : Bool) (fuel : Nat) (s : CapState) (idx : Nat)
    (h : freeChildrenInv s) :
    freeChildrenInv ((revoke_dfs_locked fuel s idx strict).2) :=
  (revoke_dfs_rel strict freeChildrenInv (fun _ _ => True)
    (fun _ _ _ _ _ => trivial) (fun _ => trivial)
    (fun s' i h' => ⟨revoke_one_freeInv s' i strict h', trivial⟩) fuel s idx h).1

theorem revoke_one_slotDone (s : CapState) (idx : Nat) (strict : Bool) (j : Nat)
    (h : slotDone s j) : slotDone ((revoke_one_locked s idx strict).2) j := by
  rcases revoke_one_entry s idx strict j with he | he | he <;> rw [slotDone, he]
  · exact h
  · exact Or.inl rfl
  · exact Or.inr rfl

theorem revoke_dfs_slotDone (strict : Bool) (fuel : Nat) (s : CapState) (idx : Nat)
    (j : Nat) (h : slotDone s j) :
    slotDone ((revoke_dfs_locked fuel s idx strict).2) j :=
  (revoke_dfs_rel strict (fun _ => True) (fun a b => ∀ j, slotDone a j → slotDone b j)
    (fun a b c h1 h2 j hj => h2 j (h1 j hj)) (fun _ _ hj => hj)
    (fun s' i _ => ⟨trivial, fun j hj => revoke_one_slotDone s' i strict j hj⟩)
    fuel s idx trivial).2 j h

theorem revoke_dfs_list_slotDone (f : CapState → Nat → Except CapError Unit × CapState)
    (hf : ∀ s c j, slotDone s j → slotDone ((f s c).2) j) (l : List Nat) (s : CapState)
    (j : Nat) (h : slotDone s j) : slotDone ((revoke_dfs_list f s l).2) j :=
  (revoke_dfs_list_main f (fun _ => True) (fun a b => ∀ j, slotDone a j → slotDone b j)
    (fun a b c h1 h2 j hj => h2 j (h1 j hj)) (fun _ _ hj => hj)
    (fun s' c _ => ⟨trivial, fun j hj => hf s' c j hj⟩) l s trivial).2 j h

theorem revoke_dfs_list_freeInv (f : CapState → Nat → Except CapError Unit × CapState)
    (hf : ∀ s c, freeChildrenInv s → freeChildrenInv ((f s c).2)) (l : List Nat)
    (s : CapState) (h : freeChildrenInv s) : freeChildrenInv ((revoke_dfs_list f s l).2) :=
  (revoke_dfs_list_main f freeChildrenInv (fun _ _ => True)
    (fun _ _ _ _ _ => trivial) (fun _ => trivial)
    (fun s' c h' => ⟨hf s' c h', trivial⟩) l s h).1

theorem revoke_dfs_list_ch_sub (f : CapState → Nat → Except CapError Unit × CapState)
    (hf : ∀ s c p, ((f s c).2).children_of p ⊆ s.children_of p) (l : List Nat)
    (s : CapState) (p : Nat) :
    ((revoke_dfs_list f s l).2).children_of p ⊆ s.children_of p :=
  (revoke_dfs_list_main f (fun _ => True)
    (fun a b => ∀ p, b.children_of p ⊆ a.children_of p)
    (fun a b c h1 h2 p x hx => h1 p (h2 p hx)) (fun _ _ x hx => hx)
    (fun s' c _ => ⟨trivial, fun p => hf s' c p⟩) l s trivial).2 p

/-- Processing a child list: every subtree of a listed child is fully
revoked (`slotDone`), and any reachability destroyed along the way only
concerns slots already dealt with.  `IH` is the induction hypothesis of
`revoke_dfs_subtree_done` at the children's fuel. -/
theorem revoke_dfs_list_done (rank : Nat → Nat) (fuel : Nat)
    (IH : ∀ s idx,
      (∀ p c, c ∈ s.children_of p → rank c < rank p) →
      (∀ p c, c ∈ s.children_of p → c < MAX_CAPABILITIES) →
      freeChildrenInv s → idx < MAX_CAPABILITIES → rank idx < fuel →
      (∀ j, subtree_mem fuel s.children_of idx j = true →
        slotDone ((revoke_dfs_locked fuel s idx false).2) j) ∧
      (∀ f r j, subtree_mem f s.children_of r j = true →
        subtree_mem f ((revoke_dfs_locked fuel s idx false).2).children_of r j = true ∨
        slotDone ((revoke_dfs_locked fuel s idx false).2) j)) :
    ∀ l t,
      (∀ c ∈ l, c < MAX_CAPABILITIES ∧ rank c < fuel) →
      (∀ p c, c ∈ t.children_of p → rank c < rank p) →
      (∀ p c, c ∈ t.children_of p → c < MAX_CAPABILITIES) →
      freeChildrenInv t →
      (∀ c ∈ l, ∀ j, subtree_mem fuel t.children_of c j = true →
        slotDone ((revoke_dfs_list (fun s' c' => revoke_dfs_locked fuel s' c' false)
          t l).2) j) ∧
      (∀ f r j, subtree_mem f t.children_of r j = true →
        subtree_mem f ((revoke_dfs_list (fun s' c' => revoke_dfs_locked fuel s' c' false)
          t l).2).children_of r j = true ∨
        slotDone ((revoke_dfs_list (fun s' c' => revoke_dfs_locked fuel s' c' false)
          t l).2) j) := by
  intro l
  induction l with
  | nil =>
    intro t _ _ _ _
    exact ⟨fun c hc => absurd hc (List.not_mem_nil c), fun f r j hm => Or.inl hm⟩
  | cons c cs ih =>
    intro t hcl hrankt hltt hfreet
    have hc0 := hcl c (List.mem_cons_self c cs)
    have hG := IH t c hrankt hltt hfreet hc0.1 hc0.2
    cases hfc : revoke_dfs_locked fuel t c false with
    | mk r uc =>
      have hokk : r = Except.ok () := by
        have h0 := revoke_dfs_ok_nonstrict fuel t c
        rw [hfc] at h0
        exact h0
      subst hokk
      rw [revoke_dfs_list]
      rw [hfc]
      simp only []
      have hsubc : ∀ p, uc.children_of p ⊆ t.children_of p := by
        intro p
        have h2 := revoke_dfs_children_sub false fuel t c p
        rw [hfc] at h2
        exact h2
      have hranku : ∀ p c', c' ∈ uc.children_of p → rank c' < rank p :=
        fun p c' hc' => hrankt p c' (hsubc p hc')
      have hltu : ∀ p c', c' ∈ uc.children_of p → c' < MAX_CAPABILITIES :=
        fun p c' hc' => hltt p c' (hsubc p hc')
      have hfreeu : freeChildrenInv uc := by
        have h2 := revoke_dfs_freeInv false fuel t c hfreet
        rw [hfc] at h2
        exact h2
      have hGa : ∀ j, subtree_mem fuel t.children_of c j = true → slotDone uc j := by
        intro j hm
        have h2 := hG.1 j hm
        rw [hfc] at h2
        exact h2
      have hGb : ∀ f r' j, subtree_mem f t.children_of r' j = true →
          subtree_mem f uc.children_of r' j = true ∨ slotDone uc j := by
        intro f r' j hm
        have h2 := hG.2 f r' j hm
        rw [hfc] at h2
        exact h2
      have hrest := ih uc (fun c' hc' => hcl c' (List.mem_cons_of_mem c hc'))
        hranku hltu hfreeu
      have hdonerest : ∀ j, slotDone uc j →
          slotDone ((revoke_dfs_list (fun s' c' => revoke_dfs_locked fuel s' c' false)
            uc cs).2) j :=
        fun j hj => revoke_dfs_list_slotDone _
          (fun s' c' j' hj' => revoke_dfs_slotDone false fuel s' c' j' hj') cs uc j hj
      refine ⟨?_, ?_⟩
      · intro c0 hc0m j hm
        rcases List.mem_cons.mp hc0m with hceq | hcm
        · rw [hceq] at hm
          exact hdonerest j (hGa j hm)
        · rcases hGb fuel c0 j hm with hm2 | hdone
          · exact hrest.1 c0 hcm j hm2
          · exact hdonerest j hdone
      · intro f r' j hm
        rcases hGb f r' j hm with hm2 | hdone
        · exact hrest.2 f r' j hm2
        · exact Or.inr (hdonerest j hdone)

/-- Non-strict DFS revocation from an in-range root settles *every* slot
of the explored subtree: afterwards each is either `Free` or
`PendingRevoke`.  `rank` witnesses that delegation edges strictly
decrease some measure (the table's parent-before-child creation
discipline); the rank of the root must lie below the fuel.  The second
conjunct is the auxiliary transfer invariant: any reachability the call
destroys only concerns slots it has already settled. -/
theorem revoke_dfs_subtree_done (rank : Nat → Nat) :
    ∀ fuel s idx,
      (∀ p c, c ∈ s.children_of p → rank c < rank p) →
      (∀ p c, c ∈ s.children_of p → c < MAX_CAPABILITIES) →
      freeChildrenInv s →
      idx < MAX_CAPABILITIES → rank idx < fuel →
      (∀ j, subtree_mem fuel s.children_of idx j = true →
        slotDone ((revoke_dfs_locked fuel s idx false).2) j) ∧
      (∀ f r j, subtree_mem f s.children_of r j = true →
        subtree_mem f ((revoke_dfs_locked fuel s idx false).2).children_of r j = true ∨
        slotDone ((revoke_dfs_locked fuel s idx false).2) j) := by
  intro fuel
  induction fuel with
  | zero =>
    intro s idx _ _ _ _ hrk
    exact absurd hrk (Nat.not_lt_zero _)
  | succ fuel ih =>
    intro s idx hrank hlt hfree hidx hrk
    rw [revoke_dfs_locked]
    rw [if_neg (Nat.not_le.mpr hidx)]
    by_cases hfr : (s.ro idx).state = .Free
    · rw [if_pos hfr]
      constructor
      · intro j hm
        rw [subtree_mem] at hm
        rcases Bool.or_eq_true_iff.mp hm with hr | hany
        · have hji : idx = j := eq_of_beq hr
          rw [← hji]
          exact Or.inl hfr
        · rcases List.any_eq_true.mp hany with ⟨c, hc, _⟩
          rw [hfree idx hfr] at hc
          cases hc
      · intro f r j hm
        exact Or.inl hm
    · rw [if_neg hfr]
      have hcl : ∀ c ∈ s.children_of idx, c < MAX_CAPABILITIES ∧ rank c < fuel := by
        intro c hc
        refine ⟨hlt idx c hc, ?_⟩
        have := hrank idx c hc
        omega
      have hlistmain := revoke_dfs_list_done rank fuel ih (s.children_of idx) s
        hcl hrank hlt hfree
      cases hls : revoke_dfs_list (fun s' c' => revoke_dfs_locked fuel s' c' false) s
          (s.children_of idx) with
      | mk r u =>
        have hokk : r = Except.ok () := by
          have h0 := (revoke_dfs_list_ok (fun s' c => revoke_dfs_locked fuel s' c false)
            (fun _ => True) (fun s' c _ => ⟨trivial, revoke_dfs_ok_nonstrict fuel s' c⟩)
            (s.children_of idx) s trivial).1
          rw [hls] at h0
          exact h0
        subst hokk
        simp only []
        rw [hls] at hlistmain
        obtain ⟨hLa, hLb⟩ := hlistmain
        have hsubu : ∀ p, u.children_of p ⊆ s.children_of p := by
          intro p
          have h2 := revoke_dfs_list_ch_sub
            (fun s' c' => revoke_dfs_locked fuel s' c' false)
            (fun s' c' p' => revoke_dfs_children_sub false fuel s' c' p')
            (s.children_of idx) s p
          rw [hls] at h2
          exact h2
        have hranku : ∀ p c, c ∈ u.children_of p → rank c < rank p :=
          fun p c hc => hrank p c (hsubu p hc)
        constructor
        · intro j hm
          rw [subtree_mem] at hm
          rcases Bool.or_eq_true_iff.mp hm with hr | hany
          · have hji : idx = j := eq_of_beq hr
            rw [← hji]
            rcases revoke_one_cases u idx false with ⟨_, hs, _⟩ | ⟨he, _, _⟩ | ⟨he, _⟩
            · cases hs
            · refine Or.inr ?_
              rw [he]
              show ((upd u.ro idx { u.ro idx with state := .PendingRevoke }) idx).state = _
              rw [upd_same]
            · refine Or.inl ?_
              rw [he]
              obtain ⟨qc, tc, sc, ch, pf, fs, uc2, hsh, _⟩ := revoke_free_path_shape u idx
              show ((revoke_free_path u idx).ro idx).state = _
              rw [hsh]
              show ((upd u.ro idx (freed_entry u idx)) idx).state = _
              rw [upd_same]
              rfl
          · rcases List.any_eq_true.mp hany with ⟨c, hc, hmc⟩
            exact revoke_one_slotDone u idx false j (hLa c hc j hmc)
        · intro f r' j hm
          rcases hLb f r' j hm with hmu | hdu
          · rcases revoke_one_cases u idx false with ⟨_, hs, _⟩ | ⟨he, _, _⟩ | ⟨he, _⟩
            · cases hs
            · have hch : ((revoke_one_locked u idx false).2).children_of =
                  u.children_of := by
                rw [he]
                rfl
              rw [hch]
              exact Or.inl hmu
            · by_cases hd2 : subtree_mem f ((revoke_one_locked u idx false).2).children_of
                  r' j = true
              · exact Or.inl hd2
              · refine Or.inr ?_
                have hdf : subtree_mem f (revoke_free_path u idx).children_of r' j
                    = false := by
                  have hcf : ((revoke_one_locked u idx false).2).children_of =
                      (revoke_free_path u idx).children_of := by
                    rw [he]
                  rw [← hcf]
                  exact Bool.eq_false_iff.mpr hd2
                have hmidx : subtree_mem f u.children_of idx j = true :=
                  subtree_destroy u.children_of (revoke_free_path u idx).children_of idx j
                    (revoke_free_path_ch u idx).2 f r' hmu hdf
                have hmidx2 : subtree_mem (rank idx + 1) u.children_of idx j = true :=
                  subtree_mem_rank u.children_of rank j hranku f idx hmidx
                rw [subtree_mem] at hmidx2
                rcases Bool.or_eq_true_iff.mp hmidx2 with hr2 | hany2
                · have hji : idx = j := eq_of_beq hr2
                  rw [← hji]
                  refine Or.inl ?_
                  rw [he]
                  obtain ⟨qc, tc, sc, ch, pf, fs, uc2, hsh, _⟩ := revoke_free_path_shape u idx
                  show ((revoke_free_path u idx).ro idx).state = _
                  rw [hsh]
                  show ((upd u.ro idx (freed_entry u idx)) idx).state = _
                  rw [upd_same]
                  rfl
                · rcases List.any_eq_true.mp hany2 with ⟨c, hcu, hmcu⟩
                  have hcs : c ∈ s.children_of idx := hsubu idx hcu
                  have hrkle : rank idx ≤ fuel := by omega
                  have hm3 : subtree_mem fuel u.children_of c j = true :=
                    subtree_mem_fuel_mono u.children_of j (rank idx) fuel c hrkle hmcu
                  have hm4 : subtree_mem fuel s.children_of c j = true :=
                    subtree_mem_ch_mono u.children_of s.children_of j hsubu fuel c hm3
                  exact revoke_one_slotDone u idx false j (hLa c hcs j hm4)
          · exact Or.inr (revoke_one_slotDone u idx false j hdu)

-- ========== The three borrow-release entry points, uniformly ==========

/-- Selector for the release operation of the public API that completes
pending revocations (`release_shared`, `release_shared_frozen`,
`release_exclusive`). -/
inductive ReleaseOp where
  | shared
  | shared_frozen
  | exclusive
deriving DecidableEq, Repr

def run_release (op : ReleaseOp) (s : CapState) (h : CapabilityHandle)
    (t : ThreadId) : Except CapError Unit × CapState :=
  match op with
  | .shared => release_shared s h t
  | .shared_frozen => release_shared_frozen s h t
  | .exclusive => release_exclusive s h t

theorem complete_list_borrows (l : List Nat) :
    ∀ st : CapState, (complete_list st l).resource_borrows = st.resource_borrows := by
  induction l with
  | nil => intro st; rfl
  | cons i rest ih =>
    intro st
    show (complete_list ((revoke_one_locked st i true).2) rest).resource_borrows = _
    rw [ih]
    exact revoke_one_borrows st i true

theorem try_complete_borrows (s : CapState) (rid : ResourceId) :
    (try_complete_pending_for s rid).resource_borrows = s.resource_borrows := by
  unfold try_complete_pending_for
  by_cases hemp : (s.pending_revoke rid).isEmpty = true
  · rw [if_pos hemp]
  · rw [if_neg hemp]
    simp only []
    cases hproc : (match s.resource_borrows rid with
        | some bs => !bs.has_active
        | none => true) with
    | true =>
      rw [if_pos rfl]
      rw [complete_list_borrows]
    | false =>
      rw [if_neg Bool.false_ne_true]

/-- Any of the three release operations, on success, updates the borrow
state of the handle's resource and runs `try_complete_pending_for` on it;
nothing else of the table changes before completion. -/
theorem release_op_shape (op : ReleaseOp) (s : CapState) (hs : CapabilityHandle)
    (t : ThreadId) (hok : (run_release op s hs t).1 = .ok ()) :
    ∃ bs2, run_release op s hs t = (.ok (), try_complete_pending_for
      { s with resource_borrows := upd s.resource_borrows ((s.ro hs.index).resource_id) (some bs2) }
      ((s.ro hs.index).resource_id)) := by
  cases op with
  | shared =>
    cases hfv : fast_validate s hs with
    | error e =>
      have hred : run_release ReleaseOp.shared s hs t = (.error e, s) := by
        simp only [run_release, release_shared, hfv]
      rw [hred] at hok
      simp at hok
    | ok u =>
      cases hb : s.resource_borrows ((s.ro hs.index).resource_id) with
      | none =>
        have hred : run_release ReleaseOp.shared s hs t = (.error .ResourceNotFound, s) := by
          simp only [run_release, release_shared, hfv, hb]
        rw [hred] at hok
        simp at hok
      | some bs =>
        cases hr : bs.release_shared hs.index t with
        | mk r bs2 =>
          cases r with
          | error e2 =>
            have hred : run_release ReleaseOp.shared s hs t = (.error e2, s) := by
              simp only [run_release, release_shared, hfv, hb, hr]
            rw [hred] at hok
            simp at hok
          | ok u2 =>
            refine ⟨bs2, ?_⟩
            simp only [run_release, release_shared, hfv, hb, hr]
  | shared_frozen =>
    cases hfv : fast_validate s hs with
    | error e =>
      have hred : run_release ReleaseOp.shared_frozen s hs t = (.error e, s) := by
        simp only [run_release, release_shared_frozen, release_shared, hfv]
      rw [hred] at hok
      simp at hok
    | ok u =>
      cases hb : s.resource_borrows ((s.ro hs.index).resource_id) with
      | none =>
        have hred : run_release ReleaseOp.shared_frozen s hs t
            = (.error .ResourceNotFound, s) := by
          simp only [run_release, release_shared_frozen, release_shared, hfv, hb]
        rw [hred] at hok
        simp at hok
      | some bs =>
        cases hr : bs.release_shared hs.index t with
        | mk r bs2 =>
          cases r with
          | error e2 =>
            have hred : run_release ReleaseOp.shared_frozen s hs t = (.error e2, s) := by
              simp only [run_release, release_shared_frozen, release_shared, hfv, hb, hr]
            rw [hred] at hok
            simp at hok
          | ok u2 =>
            refine ⟨bs2, ?_⟩
            simp only [run_release, release_shared_frozen, release_shared, hfv, hb, hr]
  | exclusive =>
    cases hfv : fast_validate s hs with
    | error e =>
      have hred : run_release ReleaseOp.exclusive s hs t = (.error e, s) := by
        simp only [run_release, release_exclusive, hfv]
      rw [hred] at hok
      simp at hok
    | ok u =>
      cases hb : s.resource_borrows ((s.ro hs.index).resource_id) with
      | none =>
        have hred : run_release ReleaseOp.exclusive s hs t
            = (.error .ResourceNotFound, s) := by
          simp only [run_release, release_exclusive, hfv, hb]
        rw [hred] at hok
        simp at hok
      | some bs =>
        cases hr : bs.release_exclusive hs.index t with
        | mk r bs2 =>
          cases r with
          | error e2 =>
            have hred : run_release ReleaseOp.exclusive s hs t = (.error e2, s) := by
              simp only [run_release, release_exclusive, hfv, hb, hr]
            rw [hred] at hok
            simp at hok
          | ok u2 =>
            refine ⟨bs2, ?_⟩
            simp only [run_release, release_exclusive, hfv, hb, hr]

/-- C2: run `revoke_capability_deferred(h)` on a valid handle while
`rid = resource_id(h)` has an active borrow (`bs0`, of any shape).  The
call succeeds; `h`'s slot is left `PendingRevoke` and queued under `rid`;
every slot of the revoked subtree is afterwards either `Free` or
`PendingRevoke` (slots that could not be freed are exactly the
`PendingRevoke` ones) — under the table's delegation-depth discipline,
witnessed by a `rank` decreasing along `children_of` edges — and, by the
pending-queue invariant, every queued slot is `PendingRevoke`.  When any
of the three release operations (`release_shared`,
`release_shared_frozen`, `release_exclusive`, chosen by `op`) then
succeeds on that resource and leaves `resource_borrows[rid].has_active()`
false, `h`'s slot and all queued descendants transition to `Free` with
their generation incremented (wrapping `u32`), and the queue drains. -/
theorem c2_confirmed (rank : Nat → Nat) (op : ReleaseOp)
    (s : CapState) (h hs : CapabilityHandle) (t : ThreadId)
    (bs0 : ResourceBorrowState)
    (hrank : ∀ p c, c ∈ s.children_of p → rank c < rank p)
    (hlt : ∀ p c, c ∈ s.children_of p → c < MAX_CAPABILITIES)
    (hfree : freeChildrenInv s)
    (hrk : rank h.index < MAX_CAPABILITIES)
    (hinv : pendingInv s)
    (hv : fast_validate s h = .ok ())
    (hbs : s.resource_borrows ((s.ro h.index).resource_id) = some bs0)
    (hact : bs0.has_active = true)
    (hsrid : (s.ro hs.index).resource_id = (s.ro h.index).resource_id)
    (hok : (run_release op (revoke_capability_deferred s h).2 hs t).1 = .ok ())
    (hinactive : ∀ bs,
      ((run_release op (revoke_capability_deferred s h).2 hs t).2).resource_borrows
        ((s.ro h.index).resource_id) = some bs → bs.has_active = false)
    (hnd : (((revoke_capability_deferred s h).2).pending_revoke
      ((s.ro h.index).resource_id)).Nodup) :
    (revoke_capability_deferred s h).1 = .ok () ∧
    (((revoke_capability_deferred s h).2).ro h.index).state = .PendingRevoke ∧
    h.index ∈ ((revoke_capability_deferred s h).2).pending_revoke
      ((s.ro h.index).resource_id) ∧
    (∀ j, subtree_mem MAX_CAPABILITIES s.children_of h.index j = true →
      (((revoke_capability_deferred s h).2).ro j).state = .Free ∨
      (((revoke_capability_deferred s h).2).ro j).state = .PendingRevoke) ∧
    (∀ r j, j ∈ ((revoke_capability_deferred s h).2).pending_revoke r →
      (((revoke_capability_deferred s h).2).ro j).state = .PendingRevoke) ∧
    (∀ j, j ∈ ((revoke_capability_deferred s h).2).pending_revoke
        ((s.ro h.index).resource_id) →
      (((run_release op (revoke_capability_deferred s h).2 hs t).2).ro j).state = .Free ∧
      (((run_release op (revoke_capability_deferred s h).2 hs t).2).ro j).generation =
        ((((revoke_capability_deferred s h).2).ro j).generation + 1) % U32MOD) ∧
    ((run_release op (revoke_capability_deferred s h).2 hs t).2).pending_revoke
      ((s.ro h.index).resource_id) = [] := by
  have hred : revoke_capability_deferred s h =
      revoke_dfs_locked MAX_CAPABILITIES s h.index false := by
    unfold revoke_capability_deferred
    rw [hv]
  rw [hred] at hok hinactive hnd ⊢
  obtain ⟨hidx, hlive, -, -⟩ := fast_validate_ok s h hv
  have hroot := revoke_dfs_deferred_root 8191 s h.index hidx hlive bs0 hbs hact
  have hinv1 := revoke_dfs_pendingInv false MAX_CAPABILITIES s h.index hinv
  have hsub := (revoke_dfs_subtree_done rank MAX_CAPABILITIES s h.index
    hrank hlt hfree hidx hrk).1
  have hsrid1 : (((revoke_dfs_locked MAX_CAPABILITIES s h.index false).2).ro
      hs.index).resource_id = (s.ro h.index).resource_id := by
    rw [entry_core_resource (revoke_dfs_core false MAX_CAPABILITIES s h.index hs.index)]
    exact hsrid
  obtain ⟨bs2, hshape⟩ := release_op_shape op
    (revoke_dfs_locked MAX_CAPABILITIES s h.index false).2 hs t hok
  rw [hsrid1] at hshape
  have hbs2 : bs2.has_active = false := by
    apply hinactive
    rw [hshape]
    show (try_complete_pending_for _ _).resource_borrows _ = _
    rw [try_complete_borrows]
    exact upd_same _ _ _
  have htc := try_complete_frees
    { (revoke_dfs_locked MAX_CAPABILITIES s h.index false).2 with resource_borrows := upd ((revoke_dfs_locked MAX_CAPABILITIES s h.index false).2).resource_borrows ((s.ro h.index).resource_id) (some bs2) }
    ((s.ro h.index).resource_id)
    (fun j hj => (hinv1.1 _ j hj).2)
    hnd
    (by
      intro bs hbb
      have hbb2 : some bs2 = some bs := by
        rw [← hbb]
        exact (upd_same _ _ _).symm
      cases hbb2
      exact hbs2)
  refine ⟨revoke_dfs_ok_nonstrict MAX_CAPABILITIES s h.index, hroot.1, hroot.2, hsub,
    fun r j hj => (hinv1.1 r j hj).1, ?_, ?_⟩
  · intro j hj
    rw [hshape]
    exact htc.1 j hj
  · rw [hshape]
    exact htc.2

/-- Witness: slot 0 (revoked deferred) delegates to slot 2, and thread 9
holds the single shared borrow of `c2rid` through slot 1.  The deferred
revoke parks both subtree slots (0 and 2) `PendingRevoke` and queues
them; the `release_shared` that drops the last borrow frees them both
with bumped generations and drains the queue. -/
theorem c2_confirmed_witness :
    (revoke_capability_deferred c2state c2h).1 = .ok () ∧
    (((revoke_capability_deferred c2state c2h).2).ro c2h.index).state = .PendingRevoke ∧
    c2h.index ∈ ((revoke_capability_deferred c2state c2h).2).pending_revoke
      ((c2state.ro c2h.index).resource_id) ∧
    (∀ j, subtree_mem MAX_CAPABILITIES c2state.children_of c2h.index j = true →
      (((revoke_capability_deferred c2state c2h).2).ro j).state = .Free ∨
      (((revoke_capability_deferred c2state c2h).2).ro j).state = .PendingRevoke) ∧
    (∀ r j, j ∈ ((revoke_capability_deferred c2state c2h).2).pending_revoke r →
      (((revoke_capability_deferred c2state c2h).2).ro j).state = .PendingRevoke) ∧
    (∀ j, j ∈ ((revoke_capability_deferred c2state c2h).2).pending_revoke
        ((c2state.ro c2h.index).resource_id) →
      (((run_release ReleaseOp.shared (revoke_capability_deferred c2state c2h).2
          c2hs 9).2).ro j).state = .Free ∧
      (((run_release ReleaseOp.shared (revoke_capability_deferred c2state c2h).2
          c2hs 9).2).ro j).generation =
        ((((revoke_capability_deferred c2state c2h).2).ro j).generation + 1) % U32MOD) ∧
    ((run_release ReleaseOp.shared (revoke_capability_deferred c2state c2h).2
        c2hs 9).2).pending_revoke ((c2state.ro c2h.index).resource_id) = [] :=
  c2_confirmed (fun i => MAX_CAPABILITIES - 1 - i) ReleaseOp.shared c2state c2h c2hs 9 c2bs0
    (by
      intro p c hc
      by_cases hp : p = 0
      · subst hp
        have hc2 : c ∈ ([2] : List Nat) := hc
        simp at hc2
        subst hc2
        decide
      · have hnil : c2state.children_of p = [] := by
          show upd initState.children_of 0 [2] p = []
          rw [upd_ne _ _ _ _ hp]
          rfl
        rw [hnil] at hc
        exact absurd hc (List.not_mem_nil c))
    (by
      intro p c hc
      by_cases hp : p = 0
      · subst hp
        have hc2 : c ∈ ([2] : List Nat) := hc
        simp at hc2
        subst hc2
        decide
      · have hnil : c2state.children_of p = [] := by
          show upd initState.children_of 0 [2] p = []
          rw [upd_ne _ _ _ _ hp]
          rfl
        rw [hnil] at hc
        exact absurd hc (List.not_mem_nil c))
    (by
      intro p hf
      by_cases hp : p = 0
      · subst hp
        exact absurd hf (by decide)
      · show upd initState.children_of 0 [2] p = []
        rw [upd_ne _ _ _ _ hp]
        rfl)
    (by decide)
    ⟨fun _ _ hj => (nomatch hj), fun _ hr => absurd rfl hr⟩
    (by decide) (by decide) (by decide) (by decide) (by decide)
    (by
      intro bs hb
      have hdec : ((run_release ReleaseOp.shared (revoke_capability_deferred c2state
          c2h).2 c2hs 9).2).resource_borrows ((c2state.ro c2h.index).resource_id) =
          some { shared := [], exclusive := none, frozen_count := 0 } := by decide
      rw [hdec] at hb
      cases hb
      decide)
    (by decide)
